import Mathlib

/-!
# obs: task registry, context propagation, state wire format and tree builder

A shallow embedding of `obs/obs.go` and `obs/tree.go`.

* Process-wide variables (`registry`, `idCounter`, `enabled`) and the heap of
  `Tracker` objects form an explicit `World` that every operation threads.
* A `*Tracker` is an address into the heap; `nil` is `none`.
* `time.Now()` is an argument of the operation that reads the clock; instants
  are integer nanoseconds since the Unix epoch.
* `uint64` is `Nat` with an explicit `% 2 ^ 64` on the counter increment;
  `int32`/`int64` fields are `Int`.
* The iteration order of a Go map, and of `sync.Map.Range`, is chosen by the
  runtime; `BuildTree` and `Snapshot` take it as the argument `order`.
-/

namespace Obs

/-! ## Data model -/

/-- Instants (`time.Time`) and spans (`time.Duration`), in integer nanoseconds. -/
abbrev Time := Int

/-- Go `type State int32`. -/
abbrev State := Int

/-- Go constant `StateRunning` (iota = 0). -/
def StateRunning : State := 0

/-- Go constant `StateIdle` (iota = 1). -/
def StateIdle : State := 1

/-- Go constant `StateCompleted` (iota = 2). -/
def StateCompleted : State := 2

/-- Go `type Tracker struct`; the three atomic fields hold their current value. -/
structure Tracker where
  Id : Nat
  Name : String
  ParentId : Nat
  startedAt : Time
  endedAt : Int
  state : Int
  lastActive : Int
deriving DecidableEq, Repr

/-- The zero value of `Tracker`. -/
def Tracker.zero : Tracker :=
  { Id := 0, Name := "", ParentId := 0, startedAt := 0, endedAt := 0, state := 0, lastActive := 0 }

/-- Address of a `Tracker` object (`*Tracker` that is not nil). -/
abbrev Ptr := Nat

/-- Keys under which a context binds values: the package's private
`trackerKey{}` or any key of another package. -/
inductive Key where
  | trackerKey
  | other (n : Nat)
deriving DecidableEq, Repr

/-- Values bound in a context (`any`): the nil interface, a `*Tracker`
(possibly a nil pointer), or a value of another type. -/
inductive Value where
  | nil
  | tracker (p : Option Ptr)
  | other (n : Nat)
deriving DecidableEq, Repr

/-- Go `context.Context`: the nil interface, a context without bindings
(`context.Background()`), or `context.WithValue(parent, key, val)`. -/
inductive Context where
  | nil
  | background
  | withValue (parent : Context) (key : Key) (val : Value)
deriving DecidableEq, Repr

/-- Go `ctx.Value(key)` on a context: innermost binding of `key`, nil interface when
there is none. -/
def Context.Value : Context → Key → Obs.Value
  | .nil, _ => .nil
  | .background, _ => .nil
  | .withValue parent k v, key => if key = k then v else parent.Value key

/-- Go `context.WithValue(parent, key, val)`: panics (`none`) on a nil parent. -/
def Context.WithValue (parent : Context) (key : Key) (val : Obs.Value) : Option Context :=
  match parent with
  | .nil => none
  | _ => some (.withValue parent key val)

/-- The package-level variables together with the heap of allocated trackers.
`next` is the first address not yet handed out by an allocation. -/
structure World where
  enabled : Bool
  idCounter : Nat
  registry : Nat → Option Ptr
  heap : Ptr → Tracker
  next : Ptr

/-- State of the package when the process starts: zero values everywhere. -/
def World.init : World :=
  { enabled := false, idCounter := 0, registry := fun _ => none,
    heap := fun _ => Tracker.zero, next := 0 }

/-- Writes the pointee `t` at address `p`. -/
def World.write (w : World) (p : Ptr) (t : Tracker) : World :=
  { w with heap := fun q => if q = p then t else w.heap q }

/-- Go `registry.Store(id, t)`. -/
def World.registryStore (w : World) (id : Nat) (p : Ptr) : World :=
  { w with registry := fun k => if k = id then some p else w.registry k }

/-! ## Enable / Disable -/

/-- Go `Enable`. -/
def Enable (w : World) : World := { w with enabled := true }

/-- Go `Disable`. -/
def Disable (w : World) : World := { w with enabled := false }

/-! ## Context propagation -/

/-- Go `FromContext`. -/
def FromContext (ctx : Context) : Option Ptr :=
  if ctx = .nil then none
  else
    match ctx.Value .trackerKey with
    | .nil => none
    | .tracker p => p
    | .other _ => none

/-- Go `With`. `now₁` and `now₂` are the two readings of `time.Now()`.
The result pairs the package state after the call with the returned context;
the context is `none` when `context.WithValue` panics, which happens after
the tracker has been stored. -/
def With (w : World) (ctx : Context) (name : String) (now₁ now₂ : Time) :
    World × Option Context :=
  if w.enabled = false then (w, some ctx)
  else
    let parent := FromContext ctx
    let id := (w.idCounter + 1) % 2 ^ 64
    let w := { w with idCounter := id }
    let p : Ptr := w.next
    let t : Tracker :=
      { Id := id, Name := name, ParentId := 0, startedAt := now₁,
        endedAt := 0, state := 0, lastActive := 0 }
    let t : Tracker :=
      match parent with
      | some q => { t with ParentId := (w.heap q).Id }
      | none => t
    let t := { t with state := StateRunning }
    let t := { t with lastActive := now₂ / 1000000000 }
    let w := { w.write p t with next := p + 1 }
    let w := w.registryStore id p
    (w, ctx.WithValue .trackerKey (.tracker (some p)))

/-! ## Task state machine -/

/-- Go `(*Tracker).Done`; `now` is the reading of `time.Now()`. -/
def Done (w : World) (t : Option Ptr) (now : Time) : World :=
  match t with
  | none => w
  | some p =>
    let w := w.write p { w.heap p with state := StateCompleted }
    w.write p { w.heap p with endedAt := now }

/-- Go `(*Tracker).MarkActive`; `now` is the reading of `time.Now()`. -/
def MarkActive (w : World) (t : Option Ptr) (now : Time) : World :=
  match t with
  | none => w
  | some p =>
    let w := w.write p { w.heap p with state := StateRunning }
    w.write p { w.heap p with lastActive := now }

/-- Go `(*Tracker).MarkIdle`. -/
def MarkIdle (w : World) (t : Option Ptr) : World :=
  match t with
  | none => w
  | some p => w.write p { w.heap p with state := StateIdle }

/-- The value `x` is representable as a Go `int64`. -/
abbrev InInt64 (x : Int) : Prop := -2 ^ 63 ≤ x ∧ x < 2 ^ 63

/-- Result of an `int64` operation whose exact result is `x`: two's complement
wrap-around. -/
def wrapInt64 (x : Int) : Int := (x + 2 ^ 63) % 2 ^ 64 - 2 ^ 63

/-- Result of a saturating `int64` operation whose exact result is `x`: clamped
to `minDuration = -2 ^ 63` and `maxDuration = 2 ^ 63 - 1`. -/
def satInt64 (x : Int) : Int :=
  if x < -2 ^ 63 then -2 ^ 63
  else if 2 ^ 63 - 1 < x then 2 ^ 63 - 1
  else x

/-- Go `time.Since(t)` (`Time.Sub`, `subMono`) read at the instant `now`: the
span `now - t`, clamped when it does not fit an `int64`. -/
def timeSince (now t : Time) : Int := satInt64 (now - t)

/-- Go `(*Tracker).duration`; `now` is the clock reading used by `time.Since`.
The subtraction `end - t.startedAt.UnixNano()` is an `int64` subtraction. -/
def Tracker.duration (t : Tracker) (now : Time) : Int :=
  let end_ := t.endedAt
  if end_ = 0 then timeSince now t.startedAt
  else wrapInt64 (end_ - t.startedAt)

/-- One call of `With`: carrier, name and the two clock readings. -/
structure WithCall where
  ctx : Context
  name : String
  now₁ : Time
  now₂ : Time

/-- Id of the tracker that a `With` call allocates in `w` (the object at the
address `w.next`, read after the call). -/
def createdId (w : World) (c : WithCall) : Nat :=
  ((With w c.ctx c.name c.now₁ c.now₂).1.heap w.next).Id

/-- Runs `With` calls one after another and lists the ids of the trackers
created, in call order. -/
def runWith (w : World) : List WithCall → List Nat
  | [] => []
  | c :: cs => createdId w c :: runWith (With w c.ctx c.name c.now₁ c.now₂).1 cs

/-- A non-`Done` mutator call on a tracker. -/
inductive Mark where
  | active (now : Time)
  | idle
deriving DecidableEq, Repr

/-- Applies one non-`Done` mutator to the tracker `t`. -/
def Mark.apply (w : World) (t : Option Ptr) : Mark → World
  | .active now => MarkActive w t now
  | .idle => MarkIdle w t

/-- Applies a sequence of non-`Done` mutators to the tracker `t`, first call first. -/
def applyMarks (w : World) (t : Option Ptr) (ms : List Mark) : World :=
  ms.foldl (fun w m => m.apply w t) w

/-- State that the mutator `m` stores. -/
def Mark.target : Mark → State
  | .active _ => StateRunning
  | .idle => StateIdle

/-! ## State wire format -/

/-- Go `(State).String`: indexes the three-element array with the raw value;
`none` is the index-out-of-range panic. -/
def State.String (s : State) : Option String :=
  if 0 ≤ s then ["running", "idle", "completed"][s.toNat]? else none

/-- The two calls into the standard library package `encoding/json` that
`State` makes, both on a Go string: `json.Marshal(str)` and
`json.Unmarshal(data, &str)` (the string left in `str` on success). The
library is outside this repository and is taken as a parameter. -/
structure JSONCodec (Data Err : Type) where
  Marshal : String → Except Err Data
  Unmarshal : Data → Except Err String

/-- Go `(State).MarshalJSON`; `none` is the panic of `String`. -/
def State.MarshalJSON {Data Err : Type} (json : JSONCodec Data Err) (s : State) :
    Option (Except Err Data) :=
  (State.String s).map json.Marshal

/-- Go `(*State).UnmarshalJSON`: the value of `*s` after the call and the
returned error (`none` is the nil error). -/
def State.UnmarshalJSON {Data Err : Type} (json : JSONCodec Data Err) (s : State)
    (data : Data) : State × Option Err :=
  match json.Unmarshal data with
  | .error err => (s, some err)
  | .ok str =>
    let s : State :=
      if str = "running" then StateRunning
      else if str = "idle" then StateIdle
      else if str = "completed" then StateCompleted
      else StateRunning
    (s, none)

/-- A concrete codec for strings that need no escaping: encoding wraps the
characters in double quotes, decoding removes them. -/
def plainCodec : JSONCodec (List Char) String where
  Marshal := fun str => .ok (Char.ofNat 34 :: str.toList ++ [Char.ofNat 34])
  Unmarshal := fun data =>
    match data with
    | [] => .error "unexpected end of JSON input"
    | c :: rest =>
      if c = Char.ofNat 34 ∧ rest.getLast? = some (Char.ofNat 34) then
        .ok (String.mk rest.dropLast)
      else .error "invalid character"

/-! ## Tree builder -/

/-- Go `type TrackerSnapshot struct`. -/
structure TrackerSnapshot where
  Id : Nat
  Name : String
  ParentId : Nat
  StartTimeAt : Time
  State : Obs.State
  Duration : Int
deriving DecidableEq, Repr

/-- Go `type TreeNode struct`. `Children` holds references to nodes; a node is
referred to by the key under which `nodeMap` holds it (each key of `nodeMap`
holds its own freshly allocated node). -/
structure TreeNode where
  Snapshot : TrackerSnapshot
  Children : List Nat
deriving DecidableEq, Repr

/-- Go `map[uint64]*TreeNode` together with the nodes it points to. -/
abbrev NodeMap := Nat → Option TreeNode

/-- Go `nodeMap[k] = n`, and the write `*nodeMap[k] = n` through the pointer. -/
def NodeMap.store (m : NodeMap) (k : Nat) (n : TreeNode) : NodeMap :=
  fun j => if j = k then some n else m j

/-- What `BuildTree` returns: the slice of root references, and the nodes
reachable through them. -/
structure Forest where
  roots : List Nat
  nodes : NodeMap

/-- First loop of `BuildTree`: one fresh node per snapshot, stored under the
snapshot's id (a later snapshot with the same id replaces an earlier one). -/
def buildNodeMap (snapshots : List TrackerSnapshot) : NodeMap :=
  snapshots.foldl (fun m snap => m.store snap.Id { Snapshot := snap, Children := [] })
    (fun _ => none)

/-- Body of the second loop of `BuildTree` for the entry under key `k`. -/
def linkNode (acc : Forest) (k : Nat) : Forest :=
  match acc.nodes k with
  | none => acc
  | some node =>
    let parentId := node.Snapshot.ParentId
    if parentId = 0 then { acc with roots := acc.roots ++ [k] }
    else
      match acc.nodes parentId with
      | none => { acc with roots := acc.roots ++ [k] }
      | some parent =>
        { acc with nodes :=
            acc.nodes.store parentId { parent with Children := parent.Children ++ [k] } }

/-- Go `BuildTree`. `order` is the order in which `range nodeMap` yields the
keys of the map. -/
def BuildTree (snapshots : List TrackerSnapshot) (order : List Nat) : Forest :=
  order.foldl linkNode { roots := [], nodes := buildNodeMap snapshots }

/-- The list `order` is an iteration order of the map `m`: every key of `m`
exactly once. -/
def IsRangeOrder (m : NodeMap) (order : List Nat) : Prop :=
  order.Nodup ∧ ∀ k, k ∈ order ↔ (m k).isSome = true

/-- Recursive descent from a slice of node references through `Children`, in
the shape of the viewer's `printTree` (without its display sort): each node of
the slice in turn, followed by the descent into its children. Lists the nodes
visited; `fuel` bounds the nesting of calls, and `none` means that it ran out
or that a reference led to no node. -/
def descend (nodes : NodeMap) : Nat → List Nat → Option (List TreeNode)
  | _, [] => some []
  | 0, _ :: _ => none
  | fuel + 1, r :: rest =>
    match nodes r with
    | none => none
    | some node =>
      match descend nodes fuel node.Children, descend nodes fuel rest with
      | some below, some after => some (node :: (below ++ after))
      | _, _ => none

/-- The entry under key `c` is classified as a root by the second loop. -/
def isRootKey (m : NodeMap) (c : Nat) : Bool :=
  match m c with
  | none => false
  | some n => n.Snapshot.ParentId == 0 || (m n.Snapshot.ParentId).isNone

/-- The entry under key `c` is appended to the children of the node under `k`
by the second loop. -/
def isChildKey (m : NodeMap) (k c : Nat) : Bool :=
  match m c with
  | none => false
  | some n => n.Snapshot.ParentId != 0 && (m n.Snapshot.ParentId).isSome
      && n.Snapshot.ParentId == k

/-- Children references of the node under key `k`, empty when there is none. -/
def childrenOf (nodes : NodeMap) (k : Nat) : List Nat :=
  match nodes k with
  | none => []
  | some n => n.Children

/-! ## Snapshot exporter -/

/-- The `TrackerSnapshot` literal that the callback of `registry.Range` builds
from the tracker `t`; `now` is the clock reading `t.duration()` uses. -/
def TrackerSnapshot.ofTracker (t : Tracker) (now : Time) : TrackerSnapshot :=
  { Id := t.Id, Name := t.Name, ParentId := t.ParentId, StartTimeAt := t.startedAt,
    State := t.state, Duration := t.duration now }

/-- The list `order` is an iteration order of the registry: every key that holds
a tracker, exactly once. -/
def IsRegistryOrder (registry : Nat → Option Ptr) (order : List Nat) : Prop :=
  order.Nodup ∧ ∀ k, k ∈ order ↔ (registry k).isSome = true

/-- Go `Snapshot`. `order` is the order in which `registry.Range` visits the
keys and `clock k` the clock reading while the entry under `k` is visited. The
package state is returned next to the slice; the code only loads from it. -/
def Snapshot (w : World) (order : List Nat) (clock : Nat → Time) :
    World × List TrackerSnapshot :=
  if w.enabled = false then (w, [])
  else
    (w, order.foldl (fun snapshots key =>
      match w.registry key with
      | none => snapshots
      | some t => snapshots ++ [TrackerSnapshot.ofTracker (w.heap t) (clock key)]) [])

/-! ## Reachable package states -/

/-- Every binding of `trackerKey{}` in the context was made by `With`: it holds
a pointer to a tracker allocated below `next`. -/
def Context.boundByWith (next : Ptr) : Context → Prop
  | .nil => True
  | .background => True
  | .withValue parent key val =>
    parent.boundByWith next ∧ (key = .trackerKey → ∃ p, p < next ∧ val = .tracker (some p))

/-- Package states reachable from the initial one through the exported
operations, with the carriers given to `With` bound only by `With`. -/
inductive Reachable : World → Prop where
  | init : Reachable World.init
  | enable (w : World) : Reachable w → Reachable (Enable w)
  | disable (w : World) : Reachable w → Reachable (Disable w)
  | attach (w : World) (ctx : Context) (name : String) (now₁ now₂ : Time) :
      Reachable w → ctx.boundByWith w.next → Reachable (With w ctx name now₁ now₂).1
  | markActive (w : World) (t : Option Ptr) (now : Time) :
      Reachable w → Reachable (MarkActive w t now)
  | markIdle (w : World) (t : Option Ptr) : Reachable w → Reachable (MarkIdle w t)
  | done (w : World) (t : Option Ptr) (now : Time) : Reachable w → Reachable (Done w t now)

/-- Package states the program can reach: as `Reachable`, and each tracker
allocation in `With` found a free address. A `*Tracker` is a machine address of
at most 64 bits other than nil, and the registry keeps every tracker alive, so
`With` allocates only while fewer than `2 ^ 64 - 1` trackers exist. -/
inductive ReachableInMemory : World → Prop where
  | init : ReachableInMemory World.init
  | enable (w : World) : ReachableInMemory w → ReachableInMemory (Enable w)
  | disable (w : World) : ReachableInMemory w → ReachableInMemory (Disable w)
  | attach (w : World) (ctx : Context) (name : String) (now₁ now₂ : Time) :
      ReachableInMemory w → ctx.boundByWith w.next →
      (w.enabled = true → w.next + 1 < 2 ^ 64) →
      ReachableInMemory (With w ctx name now₁ now₂).1
  | markActive (w : World) (t : Option Ptr) (now : Time) :
      ReachableInMemory w → ReachableInMemory (MarkActive w t now)
  | markIdle (w : World) (t : Option Ptr) :
      ReachableInMemory w → ReachableInMemory (MarkIdle w t)
  | done (w : World) (t : Option Ptr) (now : Time) :
      ReachableInMemory w → ReachableInMemory (Done w t now)

/-- Follows parent ids through the registry from the task registered under
`id` until the sentinel 0, counting the hops; `none` when `fuel` runs out or an
id is not registered. -/
def followParents (w : World) : Nat → Nat → Option Nat
  | _, 0 => some 0
  | 0, _ + 1 => none
  | fuel + 1, id + 1 =>
    match w.registry (id + 1) with
    | none => none
    | some p => (followParents w fuel (w.heap p).ParentId).map (· + 1)

/-- Shape of the registry while fewer than `2 ^ 64` trackers have been
allocated: the counter equals the number of allocations, the tracker at address
`p` has id `p + 1`, a parent id below its own id, and is registered under its
id, and the registry holds nothing else. -/
def RegistryInv (w : World) : Prop :=
  w.idCounter = w.next ∧
    (∀ p, p < w.next →
      (w.heap p).Id = p + 1 ∧ (w.heap p).ParentId ≤ p ∧ w.registry (p + 1) = some p) ∧
    (∀ k q, w.registry k = some q → q < w.next ∧ k = q + 1)

/-! ## Theorems: id allocation and context propagation -/

theorem With_fst_enabled (w : World) (c : WithCall) :
    (With w c.ctx c.name c.now₁ c.now₂).1.enabled = w.enabled := by
  unfold With
  split <;> simp [World.write, World.registryStore]

theorem With_fst_idCounter (w : World) (c : WithCall) (he : w.enabled = true) :
    (With w c.ctx c.name c.now₁ c.now₂).1.idCounter = (w.idCounter + 1) % 2 ^ 64 := by
  unfold With
  simp [he, World.write, World.registryStore]

theorem createdId_eq (w : World) (c : WithCall) (he : w.enabled = true) :
    createdId w c = (w.idCounter + 1) % 2 ^ 64 := by
  unfold createdId With
  cases h : FromContext c.ctx <;> simp [he, h, World.write, World.registryStore]

theorem runWith_eq_range (calls : List WithCall) :
    ∀ w : World, w.enabled = true → w.idCounter + calls.length < 2 ^ 64 →
      runWith w calls = List.range' (w.idCounter + 1) calls.length := by
  induction calls with
  | nil => intro w _ _; rfl
  | cons c cs ih =>
    intro w he hlt
    simp only [List.length_cons] at hlt
    have hmod : (w.idCounter + 1) % 2 ^ 64 = w.idCounter + 1 := Nat.mod_eq_of_lt (by omega)
    have hc := With_fst_idCounter w c he
    rw [hmod] at hc
    have he2 : (With w c.ctx c.name c.now₁ c.now₂).1.enabled = true := by
      rw [With_fst_enabled, he]
    have := ih (With w c.ctx c.name c.now₁ c.now₂).1 he2 (by rw [hc]; omega)
    simp only [runWith, createdId_eq w c he, hmod, this, hc, List.length_cons, List.range']

/-- C1: with the subsystem enabled and no wrap of the 64-bit counter, the ids
created by any finite sequence of `With` calls (any carriers, any names, from
any counter value) are strictly increasing in call order, hence pairwise
distinct, and each is at least 1 and above the counter value before the
sequence. -/
theorem With_ids_strictly_increasing (w : World) (calls : List WithCall)
    (he : w.enabled = true) (hwrap : w.idCounter + calls.length < 2 ^ 64) :
    (runWith w calls).Pairwise (· < ·) ∧ (runWith w calls).Nodup ∧
      (runWith w calls).Chain' (· < ·) ∧
      (runWith w calls).length = calls.length ∧
      ∀ i ∈ runWith w calls, 1 ≤ i ∧ w.idCounter < i := by
  rw [runWith_eq_range calls w he hwrap]
  have hp : (List.range' (w.idCounter + 1) calls.length).Pairwise (· < ·) :=
    List.pairwise_lt_range' _ _
  refine ⟨hp, hp.imp (fun h => Nat.ne_of_lt h), List.Pairwise.chain' hp, by simp, ?_⟩
  intro i hi
  rw [List.mem_range'_1] at hi
  omega

/-- Witness of C1: three calls from the freshly enabled package, one of them on
the nil context, create the ids 1, 2, 3. -/
theorem With_ids_strictly_increasing_witness :
    runWith (Enable World.init)
        [⟨.background, "a", 5, 6⟩, ⟨.nil, "b", 7, 8⟩, ⟨.background, "c", 9, 9⟩] = [1, 2, 3] ∧
      (runWith (Enable World.init)
        [⟨.background, "a", 5, 6⟩, ⟨.nil, "b", 7, 8⟩, ⟨.background, "c", 9, 9⟩]).Pairwise
          (· < ·) :=
  ⟨by decide,
   (With_ids_strictly_increasing (Enable World.init)
      [⟨.background, "a", 5, 6⟩, ⟨.nil, "b", 7, 8⟩, ⟨.background, "c", 9, 9⟩]
      rfl (by decide)).1⟩

theorem With_snd_of_ne_nil (w : World) (ctx : Context) (name : String) (now₁ now₂ : Time)
    (he : w.enabled = true) (hc : ctx ≠ .nil) :
    (With w ctx name now₁ now₂).2 =
      some (.withValue ctx .trackerKey (.tracker (some w.next))) := by
  unfold With
  cases ctx with
  | nil => exact absurd rfl hc
  | background => simp [he, Context.WithValue]
  | withValue c k v => simp [he, Context.WithValue]

theorem FromContext_withValue_tracker (ctx : Context) (p : Option Ptr) :
    FromContext (.withValue ctx .trackerKey (.tracker p)) = p := by
  simp [FromContext, Context.Value]

theorem With_created (w : World) (ctx : Context) (name : String) (now₁ now₂ : Time)
    (he : w.enabled = true) :
    (With w ctx name now₁ now₂).1.heap w.next =
      { Id := (w.idCounter + 1) % 2 ^ 64, Name := name,
        ParentId := match FromContext ctx with
          | some q => (w.heap q).Id
          | none => 0,
        startedAt := now₁, endedAt := 0, state := StateRunning,
        lastActive := now₂ / 1000000000 } := by
  unfold With
  cases h : FromContext ctx <;> simp [he, h, World.write, World.registryStore]

theorem With_fst_registry (w : World) (ctx : Context) (name : String) (now₁ now₂ : Time)
    (he : w.enabled = true) :
    (With w ctx name now₁ now₂).1.registry ((w.idCounter + 1) % 2 ^ 64) = some w.next := by
  unfold With
  simp [he, World.write, World.registryStore]

/-- C2: with the subsystem enabled, the tracker that `With(c, n)` creates has
`ParentId = p.Id` when `FromContext(c)` is a tracker `p`, and `ParentId = 0`
when `FromContext(c)` is nil; and for a non-nil `root`, the tracker created by
`With(With(root, a), b)` has `ParentId` equal to the id of the tracker created
for `a`. -/
theorem With_parentId (w : World) (ctx : Context) (name : String) (now₁ now₂ : Time)
    (he : w.enabled = true) :
    (∀ p, FromContext ctx = some p →
        ((With w ctx name now₁ now₂).1.heap w.next).ParentId = (w.heap p).Id) ∧
      (FromContext ctx = none →
        ((With w ctx name now₁ now₂).1.heap w.next).ParentId = 0) ∧
      (ctx ≠ .nil → ∀ (b : String) (now₃ now₄ : Time),
        ∃ ca, (With w ctx name now₁ now₂).2 = some ca ∧
          ((With (With w ctx name now₁ now₂).1 ca b now₃ now₄).1.heap
              (With w ctx name now₁ now₂).1.next).ParentId
            = ((With w ctx name now₁ now₂).1.heap w.next).Id) := by
  refine ⟨?_, ?_, ?_⟩
  · intro p hp
    rw [With_created w ctx name now₁ now₂ he, hp]
  · intro hp
    rw [With_created w ctx name now₁ now₂ he, hp]
  · intro hc b now₃ now₄
    refine ⟨_, With_snd_of_ne_nil w ctx name now₁ now₂ he hc, ?_⟩
    have he2 : (With w ctx name now₁ now₂).1.enabled = true := by
      rw [With_fst_enabled w ⟨ctx, name, now₁, now₂⟩, he]
    rw [With_created _ _ b now₃ now₄ he2, FromContext_withValue_tracker]

/-- Witness of C2: in the freshly enabled package, `With(With(Background, "a"), "b")`
creates tracker 2 with parent 1. -/
theorem With_parentId_witness :
    ((With (With (Enable World.init) .background "a" 5 6).1
        (.withValue .background .trackerKey (.tracker (some 0))) "b" 7 8).1.heap 1).ParentId = 1 ∧
      ((With (Enable World.init) .background "a" 5 6).1.heap
        (Enable World.init).next).ParentId = 0 :=
  ⟨by decide, (With_parentId (Enable World.init) .background "a" 5 6 rfl).2.1 (by decide)⟩

/-- C3 as stated fails on the nil context: `With(nil, "x")` with the subsystem
enabled stores tracker 1 in the registry and then panics in
`context.WithValue`, so it returns no carrier to resolve. -/
theorem With_FromContext_nil_counterexample :
    ¬ (∀ (w : World) (ctx : Context) (name : String) (now₁ now₂ : Time),
        w.enabled = true →
        ∃ ctx', (With w ctx name now₁ now₂).2 = some ctx' ∧ FromContext ctx' ≠ none) ∧
      (With (Enable World.init) .nil "x" 5 6).2 = none ∧
      (With (Enable World.init) .nil "x" 5 6).1.registry 1 = some 0 := by
  refine ⟨?_, by decide, by decide⟩
  intro h
  obtain ⟨ctx', h1, _⟩ := h (Enable World.init) .nil "x" 5 6 rfl
  have h2 : (With (Enable World.init) .nil "x" 5 6).2 = none := by decide
  rw [h2] at h1
  exact Option.noConfusion h1

/-- C3 (amended): with the subsystem enabled, for every non-nil carrier `c` and
name `n`, `With(c, n)` returns a carrier on which `FromContext` yields exactly
the tracker the call created: its Name is `n`, its state is Running, its end
time is unset, and it is the tracker stored in the registry under its Id. -/
theorem With_FromContext (w : World) (ctx : Context) (name : String) (now₁ now₂ : Time)
    (he : w.enabled = true) (hc : ctx ≠ .nil) :
    ∃ ctx', (With w ctx name now₁ now₂).2 = some ctx' ∧
      FromContext ctx' = some w.next ∧
      ((With w ctx name now₁ now₂).1.heap w.next).Name = name ∧
      ((With w ctx name now₁ now₂).1.heap w.next).state = StateRunning ∧
      ((With w ctx name now₁ now₂).1.heap w.next).endedAt = 0 ∧
      (With w ctx name now₁ now₂).1.registry
        ((With w ctx name now₁ now₂).1.heap w.next).Id = some w.next := by
  refine ⟨_, With_snd_of_ne_nil w ctx name now₁ now₂ he hc,
    FromContext_withValue_tracker _ _, ?_, ?_, ?_, ?_⟩
  · rw [With_created w ctx name now₁ now₂ he]
  · rw [With_created w ctx name now₁ now₂ he]
  · rw [With_created w ctx name now₁ now₂ he]
  · rw [With_created w ctx name now₁ now₂ he]
    exact With_fst_registry w ctx name now₁ now₂ he

/-- Witness of C3 (amended): `With(Background, "root")` in the freshly enabled
package. -/
theorem With_FromContext_witness :
    ∃ ctx', (With (Enable World.init) .background "root" 5 6).2 = some ctx' ∧
      FromContext ctx' = some (Enable World.init).next ∧
      ((With (Enable World.init) .background "root" 5 6).1.heap
        (Enable World.init).next).Name = "root" ∧
      ((With (Enable World.init) .background "root" 5 6).1.heap
        (Enable World.init).next).state = StateRunning ∧
      ((With (Enable World.init) .background "root" 5 6).1.heap
        (Enable World.init).next).endedAt = 0 ∧
      (With (Enable World.init) .background "root" 5 6).1.registry
        ((With (Enable World.init) .background "root" 5 6).1.heap
          (Enable World.init).next).Id = some (Enable World.init).next :=
  With_FromContext (Enable World.init) .background "root" 5 6 rfl (by decide)

/-! ## Theorems: task state machine -/

/-- C4: for every tracker in any state, after `MarkIdle` its state reads Idle,
after `MarkActive` it reads Running and after `Done` it reads Completed; none
of the three changes the tracker's Id, Name, ParentId or start time. -/
theorem mutators_state_and_frame (w : World) (p : Ptr) (now : Time) :
    ((MarkIdle w (some p)).heap p).state = StateIdle ∧
      ((MarkActive w (some p) now).heap p).state = StateRunning ∧
      ((Done w (some p) now).heap p).state = StateCompleted ∧
      (∀ w', (w' = MarkIdle w (some p) ∨ w' = MarkActive w (some p) now ∨
            w' = Done w (some p) now) →
        (w'.heap p).Id = (w.heap p).Id ∧ (w'.heap p).Name = (w.heap p).Name ∧
        (w'.heap p).ParentId = (w.heap p).ParentId ∧
        (w'.heap p).startedAt = (w.heap p).startedAt) := by
  refine ⟨by simp [MarkIdle, World.write], by simp [MarkActive, World.write],
    by simp [Done, World.write], ?_⟩
  rintro w' (h | h | h) <;> subst h
  · simp [MarkIdle, World.write]
  · simp [MarkActive, World.write]
  · simp [Done, World.write]

theorem Mark_apply_state (w : World) (p : Ptr) (m : Mark) :
    ((m.apply w (some p)).heap p).state = m.target ∧
      ((m.apply w (some p)).heap p).endedAt = (w.heap p).endedAt := by
  cases m <;> simp [Mark.apply, Mark.target, MarkActive, MarkIdle, World.write]

theorem applyMarks_endedAt (w : World) (p : Ptr) (ms : List Mark) :
    ((applyMarks w (some p) ms).heap p).endedAt = (w.heap p).endedAt := by
  induction ms generalizing w with
  | nil => rfl
  | cons m ms ih =>
    simp only [applyMarks, List.foldl_cons] at ih ⊢
    rw [ih, (Mark_apply_state w p m).2]

/-- C5 as stated fails: after `Done`, one `MarkActive` call makes the state read
Running, and one `MarkIdle` call makes it read Idle. -/
theorem completed_not_terminal_counterexample :
    ¬ (∀ (w : World) (p : Ptr) (now : Time) (ms : List Mark),
        ((applyMarks (Done w (some p) now) (some p) ms).heap p).state = StateCompleted) ∧
      ((applyMarks (Done World.init (some 0) 5) (some 0) [.active 6]).heap 0).state
        = StateRunning ∧
      ((applyMarks (Done World.init (some 0) 5) (some 0) [.idle]).heap 0).state
        = StateIdle := by
  refine ⟨?_, by decide, by decide⟩
  intro h
  have h1 := h World.init 0 5 [.active 6]
  have h2 : ((applyMarks (Done World.init (some 0) 5) (some 0) [.active 6]).heap 0).state
      = StateRunning := by decide
  rw [h2] at h1
  exact absurd h1 (by decide)

/-- C5 (amended): after `Done` the state reads Completed only until the next
mutator call: after a further finite sequence of `MarkActive` and `MarkIdle`
calls the state reads what the last call of the sequence stored (Running for
`MarkActive`, Idle for `MarkIdle`), and Completed when the sequence is empty;
the end time recorded by `Done` is kept. -/
theorem state_after_done_then_marks (w : World) (p : Ptr) (now : Time) (ms : List Mark) :
    ((applyMarks (Done w (some p) now) (some p) ms).heap p).state =
        (match ms.getLast? with
          | none => StateCompleted
          | some m => m.target) ∧
      ((applyMarks (Done w (some p) now) (some p) ms).heap p).endedAt = now := by
  refine ⟨?_, ?_⟩
  · induction ms using List.reverseRecOn with
    | nil => simp [applyMarks, Done, World.write]
    | append_singleton l m _ =>
      simp only [applyMarks, List.foldl_append, List.foldl_cons, List.foldl_nil,
        List.getLast?_append, List.getLast?_singleton]
      simp only [Option.or]
      exact (Mark_apply_state _ p m).1
  · rw [applyMarks_endedAt]
    simp [Done, World.write]

/-! ## Theorems: state wire format -/

/-- C6: the wire strings of the three states are "running", "idle" and
"completed", pairwise distinct, and for each of the three states decoding the
encoding succeeds and yields that state, whatever the target held before. The
JSON library is assumed to decode what it encodes for these three strings. -/
theorem State_json_round_trip {Data Err : Type} (json : JSONCodec Data Err)
    (hjson : ∀ str ∈ ["running", "idle", "completed"],
      ∃ d, json.Marshal str = .ok d ∧ json.Unmarshal d = .ok str) :
    State.String StateRunning = some "running" ∧
      State.String StateIdle = some "idle" ∧
      State.String StateCompleted = some "completed" ∧
      ["running", "idle", "completed"].Nodup ∧
      ∀ s ∈ [StateRunning, StateIdle, StateCompleted], ∀ s₀ : State,
        ∃ d, State.MarshalJSON json s = some (.ok d) ∧
          State.UnmarshalJSON json s₀ d = (s, none) := by
  refine ⟨by decide, by decide, by decide, by decide, ?_⟩
  intro s hs s₀
  simp only [List.mem_cons, List.mem_singleton, List.not_mem_nil, or_false] at hs
  rcases hs with h | h | h <;> subst h
  · obtain ⟨d, hm, hu⟩ := hjson "running" (by decide)
    refine ⟨d, ?_, ?_⟩
    · have : State.String StateRunning = some "running" := by decide
      simp [State.MarshalJSON, this, hm]
    · simp [State.UnmarshalJSON, hu]
  · obtain ⟨d, hm, hu⟩ := hjson "idle" (by decide)
    refine ⟨d, ?_, ?_⟩
    · have : State.String StateIdle = some "idle" := by decide
      simp [State.MarshalJSON, this, hm]
    · simp [State.UnmarshalJSON, hu]
  · obtain ⟨d, hm, hu⟩ := hjson "completed" (by decide)
    refine ⟨d, ?_, ?_⟩
    · have : State.String StateCompleted = some "completed" := by decide
      simp [State.MarshalJSON, this, hm]
    · simp [State.UnmarshalJSON, hu]

theorem plainCodec_round_trip :
    ∀ str ∈ ["running", "idle", "completed"],
      ∃ d, plainCodec.Marshal str = .ok d ∧ plainCodec.Unmarshal d = .ok str := by
  intro str hs
  simp only [List.mem_cons, List.mem_singleton, List.not_mem_nil, or_false] at hs
  rcases hs with h | h | h <;> subst h <;> exact ⟨_, rfl, rfl⟩

/-- Witness of C6: the round trip through the quoting codec. -/
theorem State_json_round_trip_witness :
    State.MarshalJSON plainCodec StateCompleted
        = some (.ok (Char.ofNat 34 :: "completed".toList ++ [Char.ofNat 34])) ∧
      State.UnmarshalJSON plainCodec StateRunning
        (Char.ofNat 34 :: "completed".toList ++ [Char.ofNat 34]) = (StateCompleted, none) ∧
      ∀ s ∈ [StateRunning, StateIdle, StateCompleted], ∀ s₀ : State,
        ∃ d, State.MarshalJSON plainCodec s = some (.ok d) ∧
          State.UnmarshalJSON plainCodec s₀ d = (s, none) :=
  ⟨rfl, by decide,
   (State_json_round_trip plainCodec plainCodec_round_trip).2.2.2.2⟩

/-- C7: whenever the JSON value decodes to a string whose content is none of
"running", "idle", "completed", `UnmarshalJSON` returns the nil error and sets
the state to Running, whatever the target held before. -/
theorem State_unmarshal_unrecognized {Data Err : Type} (json : JSONCodec Data Err)
    (s₀ : State) (data : Data) (str : String)
    (hdec : json.Unmarshal data = .ok str)
    (h₁ : str ≠ "running") (h₂ : str ≠ "idle") (h₃ : str ≠ "completed") :
    State.UnmarshalJSON json s₀ data = (StateRunning, none) := by
  simp [State.UnmarshalJSON, hdec, h₁, h₂, h₃]

/-- Witness of C7: the empty string and the spelling "Completed" both decode to
Running, over a target that held Completed. -/
theorem State_unmarshal_unrecognized_witness :
    State.UnmarshalJSON plainCodec StateCompleted [Char.ofNat 34, Char.ofNat 34]
        = (StateRunning, none) ∧
      State.UnmarshalJSON plainCodec StateCompleted
        (Char.ofNat 34 :: "Completed".toList ++ [Char.ofNat 34]) = (StateRunning, none) :=
  ⟨State_unmarshal_unrecognized plainCodec StateCompleted _ "" rfl
      (by decide) (by decide) (by decide),
   State_unmarshal_unrecognized plainCodec StateCompleted _ "Completed" rfl
      (by decide) (by decide) (by decide)⟩

/-! ## Theorems: tree builder -/

theorem buildNodeMap_append (ss : List TrackerSnapshot) (s : TrackerSnapshot) :
    buildNodeMap (ss ++ [s]) =
      (buildNodeMap ss).store s.Id { Snapshot := s, Children := [] } := by
  simp [buildNodeMap, List.foldl_append]

theorem buildNodeMap_some (ss : List TrackerSnapshot) :
    ∀ k n, buildNodeMap ss k = some n →
      n.Children = [] ∧ n.Snapshot ∈ ss ∧ n.Snapshot.Id = k := by
  induction ss using List.reverseRecOn with
  | nil => intro k n h; simp [buildNodeMap] at h
  | append_singleton l s ih =>
    intro k n h
    rw [buildNodeMap_append] at h
    simp only [NodeMap.store] at h
    split at h
    · rename_i hk
      cases h
      simp [hk]
    · obtain ⟨h1, h2, h3⟩ := ih k n h
      exact ⟨h1, by simp [h2], h3⟩

theorem buildNodeMap_isSome (ss : List TrackerSnapshot) (k : Nat) :
    (buildNodeMap ss k).isSome = true ↔ k ∈ ss.map (·.Id) := by
  induction ss using List.reverseRecOn with
  | nil => simp [buildNodeMap]
  | append_singleton l s ih =>
    rw [buildNodeMap_append]
    simp only [NodeMap.store, List.map_append, List.map_cons, List.map_nil, List.mem_append,
      List.mem_singleton]
    split
    · rename_i hk; simp [hk]
    · rename_i hk; simp [ih, hk]

theorem buildNodeMap_of_mem (ss : List TrackerSnapshot) (hid : (ss.map (·.Id)).Nodup) :
    ∀ s ∈ ss, buildNodeMap ss s.Id = some { Snapshot := s, Children := [] } := by
  intro s hs
  have h1 : (buildNodeMap ss s.Id).isSome = true :=
    (buildNodeMap_isSome ss s.Id).2 (List.mem_map_of_mem _ hs)
  obtain ⟨n, hn⟩ := Option.isSome_iff_exists.1 h1
  obtain ⟨hc, hm, hi⟩ := buildNodeMap_some ss _ n hn
  have : n.Snapshot = s := List.inj_on_of_nodup_map hid hm hs hi
  rw [hn]
  cases n
  simp_all

theorem linkNode_foldl (m₀ : NodeMap) (l : List Nat) :
    ∀ (r : List Nat) (m : NodeMap),
      (∀ k, (m k).map (·.Snapshot) = (m₀ k).map (·.Snapshot)) →
      l.foldl linkNode { roots := r, nodes := m } =
        { roots := r ++ l.filter (isRootKey m₀),
          nodes := fun k => (m k).map fun n =>
            { n with Children := n.Children ++ l.filter (isChildKey m₀ k) } } := by
  induction l with
  | nil =>
    intro r m _
    simp only [List.foldl_nil, List.filter_nil, List.append_nil, Forest.mk.injEq, true_and]
    funext k
    cases m k <;> simp
  | cons c l ih =>
    intro r m hinv
    have hsome : ∀ k n, m k = some n → ∃ n₀, m₀ k = some n₀ ∧ n₀.Snapshot = n.Snapshot := by
      intro k n hk
      have := hinv k
      rw [hk] at this
      cases h0 : m₀ k with
      | none => rw [h0] at this; simp at this
      | some n₀ => rw [h0] at this; simp at this; exact ⟨n₀, rfl, this.symm⟩
    have hnone : ∀ k, m k = none → m₀ k = none := by
      intro k hk
      have := hinv k
      rw [hk] at this
      cases h0 : m₀ k with
      | none => rfl
      | some n₀ => rw [h0] at this; simp at this
    simp only [List.foldl_cons]
    cases hc : m c with
    | none =>
      have h0 := hnone c hc
      have e : linkNode { roots := r, nodes := m } c = { roots := r, nodes := m } := by
        simp [linkNode, hc]
      rw [e, ih r m hinv]
      have hr : isRootKey m₀ c = false := by simp [isRootKey, h0]
      have hk : ∀ k, isChildKey m₀ k c = false := by intro k; simp [isChildKey, h0]
      simp [List.filter_cons, hr, hk]
    | some node =>
      obtain ⟨n₀, h0, hs0⟩ := hsome c node hc
      by_cases hp : node.Snapshot.ParentId = 0
      · have e : linkNode { roots := r, nodes := m } c = { roots := r ++ [c], nodes := m } := by
          simp [linkNode, hc, hp]
        rw [e, ih (r ++ [c]) m hinv]
        have hr : isRootKey m₀ c = true := by simp [isRootKey, h0, hs0, hp]
        have hk : ∀ k, isChildKey m₀ k c = false := by
          intro k; simp [isChildKey, h0, hs0, hp]
        simp [List.filter_cons, hr, hk]
      · cases hpar : m node.Snapshot.ParentId with
        | none =>
          have hp0 := hnone _ hpar
          have e : linkNode { roots := r, nodes := m } c = { roots := r ++ [c], nodes := m } := by
            simp [linkNode, hc, hp, hpar]
          rw [e, ih (r ++ [c]) m hinv]
          have hr : isRootKey m₀ c = true := by simp [isRootKey, h0, hs0, hp0]
          have hk : ∀ k, isChildKey m₀ k c = false := by
            intro k; simp [isChildKey, h0, hs0, hp0]
          simp [List.filter_cons, hr, hk]
        | some parent =>
          obtain ⟨p₀, hp0, _⟩ := hsome _ parent hpar
          have e : linkNode { roots := r, nodes := m } c =
              { roots := r,
                nodes := m.store node.Snapshot.ParentId
                  { parent with Children := parent.Children ++ [c] } } := by
            simp [linkNode, hc, hp, hpar]
          have hinv2 : ∀ k, ((m.store node.Snapshot.ParentId
              { parent with Children := parent.Children ++ [c] }) k).map (·.Snapshot)
                = (m₀ k).map (·.Snapshot) := by
            intro k
            simp only [NodeMap.store]
            split
            · rename_i hk
              rw [hk, ← hinv, hpar]; rfl
            · exact hinv k
          rw [e, ih r _ hinv2]
          have hr : isRootKey m₀ c = false := by simp [isRootKey, h0, hs0, hp, hp0]
          have hk : ∀ k, isChildKey m₀ k c = (node.Snapshot.ParentId == k) := by
            intro k
            have hne : (node.Snapshot.ParentId != 0) = true := by simpa using hp
            simp [isChildKey, h0, hs0, hp0, hne]
          simp only [List.filter_cons, hr, hk, Forest.mk.injEq, true_and]
          refine ⟨by simp, ?_⟩
          funext k
          simp only [NodeMap.store]
          by_cases hkp : k = node.Snapshot.ParentId
          · subst hkp
            simp [hpar]
          · have : ¬ node.Snapshot.ParentId = k := fun h => hkp h.symm
            simp [hkp, this]

theorem BuildTree_eq (ss : List TrackerSnapshot) (order : List Nat) :
    BuildTree ss order =
      { roots := order.filter (isRootKey (buildNodeMap ss)),
        nodes := fun k => (buildNodeMap ss k).map fun n =>
          { n with Children := order.filter (isChildKey (buildNodeMap ss) k) } } := by
  unfold BuildTree
  rw [linkNode_foldl (buildNodeMap ss) order [] (buildNodeMap ss) (fun _ => rfl)]
  simp only [List.nil_append, Forest.mk.injEq, true_and]
  funext k
  cases h : buildNodeMap ss k with
  | none => rfl
  | some n => simp [(buildNodeMap_some ss k n h).1]

theorem buildNodeMap_eq_none (ss : List TrackerSnapshot) (k : Nat) :
    buildNodeMap ss k = none ↔ ∀ t ∈ ss, t.Id ≠ k := by
  rw [← Option.not_isSome_iff_eq_none, buildNodeMap_isSome]
  simp

theorem isRootKey_iff (ss : List TrackerSnapshot) (hid : (ss.map (·.Id)).Nodup) (i : Nat) :
    isRootKey (buildNodeMap ss) i = true ↔
      ∃ s ∈ ss, s.Id = i ∧ (s.ParentId = 0 ∨ ∀ t ∈ ss, t.Id ≠ s.ParentId) := by
  constructor
  · intro h
    unfold isRootKey at h
    cases hn : buildNodeMap ss i with
    | none => simp [hn] at h
    | some n =>
      obtain ⟨_, hm, hi⟩ := buildNodeMap_some ss i n hn
      simp only [hn, Bool.or_eq_true, beq_iff_eq, Option.isNone_iff_eq_none] at h
      refine ⟨n.Snapshot, hm, hi, ?_⟩
      rcases h with h | h
      · exact Or.inl h
      · exact Or.inr ((buildNodeMap_eq_none ss _).1 h)
  · rintro ⟨s, hs, rfl, h⟩
    unfold isRootKey
    rw [buildNodeMap_of_mem ss hid s hs]
    simp only [Bool.or_eq_true, beq_iff_eq, Option.isNone_iff_eq_none]
    rcases h with h | h
    · exact Or.inl h
    · exact Or.inr ((buildNodeMap_eq_none ss _).2 h)

theorem isChildKey_iff (ss : List TrackerSnapshot) (hid : (ss.map (·.Id)).Nodup) (k i : Nat)
    (hk : (buildNodeMap ss k).isSome = true) :
    isChildKey (buildNodeMap ss) k i = true ↔
      ∃ s ∈ ss, s.Id = i ∧ s.ParentId ≠ 0 ∧ s.ParentId = k := by
  constructor
  · intro h
    unfold isChildKey at h
    cases hn : buildNodeMap ss i with
    | none => simp [hn] at h
    | some n =>
      obtain ⟨_, hm, hi⟩ := buildNodeMap_some ss i n hn
      simp only [hn, Bool.and_eq_true, bne_iff_ne, beq_iff_eq] at h
      exact ⟨n.Snapshot, hm, hi, h.1.1, h.2⟩
  · rintro ⟨s, hs, rfl, h0, rfl⟩
    unfold isChildKey
    rw [buildNodeMap_of_mem ss hid s hs]
    simp only [Bool.and_eq_true, bne_iff_ne, beq_iff_eq]
    exact ⟨⟨h0, hk⟩, trivial⟩

/-- C8: for snapshots with pairwise distinct ids, the roots returned by
`BuildTree` are distinct nodes, each carrying the id it is filed under, and
their ids are exactly the ids of the snapshots whose ParentId is 0 or is not
the id of any snapshot of the list; so each such id appears exactly once, and
an orphan is a root. -/
theorem BuildTree_roots (ss : List TrackerSnapshot) (order : List Nat)
    (hid : (ss.map (·.Id)).Nodup) (hord : IsRangeOrder (buildNodeMap ss) order) :
    (BuildTree ss order).roots.Nodup ∧
      (∀ r ∈ (BuildTree ss order).roots,
        ∃ n, (BuildTree ss order).nodes r = some n ∧ n.Snapshot.Id = r) ∧
      (∀ i, i ∈ (BuildTree ss order).roots ↔
        ∃ s ∈ ss, s.Id = i ∧ (s.ParentId = 0 ∨ ∀ t ∈ ss, t.Id ≠ s.ParentId)) ∧
      (∀ i, (∃ s ∈ ss, s.Id = i ∧ (s.ParentId = 0 ∨ ∀ t ∈ ss, t.Id ≠ s.ParentId)) →
        (BuildTree ss order).roots.count i = 1) := by
  have hmem : ∀ i, i ∈ (BuildTree ss order).roots ↔
      ∃ s ∈ ss, s.Id = i ∧ (s.ParentId = 0 ∨ ∀ t ∈ ss, t.Id ≠ s.ParentId) := by
    intro i
    rw [BuildTree_eq, List.mem_filter, isRootKey_iff ss hid i]
    constructor
    · exact fun h => h.2
    · rintro ⟨s, hs, rfl, h⟩
      exact ⟨(hord.2 _).2 ((buildNodeMap_isSome ss _).2 (List.mem_map_of_mem _ hs)),
        s, hs, rfl, h⟩
  have hnd : (BuildTree ss order).roots.Nodup := by
    rw [BuildTree_eq]
    exact hord.1.filter _
  refine ⟨hnd, ?_, hmem, ?_⟩
  · intro r hr
    have hr2 := hr
    rw [BuildTree_eq, List.mem_filter] at hr2
    have hs := (hord.2 r).1 hr2.1
    obtain ⟨n, hn⟩ := Option.isSome_iff_exists.1 hs
    rw [BuildTree_eq]
    simp only [hn, Option.map_some']
    exact ⟨_, rfl, (buildNodeMap_some ss r n hn).2.2⟩
  · intro i hi
    exact List.count_eq_one_of_mem hnd ((hmem i).2 hi)

theorem isRangeOrder_buildNodeMap (ss : List TrackerSnapshot) (order : List Nat)
    (hnd : order.Nodup) (hmem : ∀ k, k ∈ order ↔ k ∈ ss.map (·.Id)) :
    IsRangeOrder (buildNodeMap ss) order :=
  ⟨hnd, fun k => (hmem k).trans (buildNodeMap_isSome ss k).symm⟩

/-- Witness of C8: the orphan `[{id:1,parent:99}]` is returned as the single root. -/
theorem BuildTree_roots_witness :
    (BuildTree [⟨1, "orphan", 99, 0, 0, 0⟩] [1]).roots = [1] ∧
      (BuildTree [⟨1, "orphan", 99, 0, 0, 0⟩] [1]).roots.count 1 = 1 :=
  ⟨by decide,
   (BuildTree_roots [⟨1, "orphan", 99, 0, 0, 0⟩] [1] (by decide)
      (isRangeOrder_buildNodeMap _ _ (by decide) (fun k => by simp))).2.2.2 1
      ⟨⟨1, "orphan", 99, 0, 0, 0⟩, by simp, rfl, Or.inr (by simp)⟩⟩

theorem BuildTree_nodes_some (ss : List TrackerSnapshot) (order : List Nat) (k : Nat)
    (n : TreeNode) (h : (BuildTree ss order).nodes k = some n) :
    (buildNodeMap ss k).isSome = true ∧ n.Snapshot ∈ ss ∧ n.Snapshot.Id = k ∧
      n.Children = order.filter (isChildKey (buildNodeMap ss) k) := by
  rw [BuildTree_eq] at h
  cases hn : buildNodeMap ss k with
  | none => simp [hn] at h
  | some n₀ =>
    simp only [hn, Option.map_some', Option.some.injEq] at h
    obtain ⟨_, hm, hi⟩ := buildNodeMap_some ss k n₀ hn
    subst h
    exact ⟨rfl, hm, hi, rfl⟩

theorem BuildTree_nodes_isSome (ss : List TrackerSnapshot) (order : List Nat) (k : Nat) :
    ((BuildTree ss order).nodes k).isSome = (buildNodeMap ss k).isSome := by
  rw [BuildTree_eq]
  simp

/-- C9: for snapshots with pairwise distinct ids, every node built by
`BuildTree` carries the id it is filed under, its children are distinct nodes
of the result, and the ids of its children are exactly the ids of the input
snapshots whose ParentId is non-zero and equals the node's id, each appearing
exactly once. -/
theorem BuildTree_children (ss : List TrackerSnapshot) (order : List Nat)
    (hid : (ss.map (·.Id)).Nodup) (hord : IsRangeOrder (buildNodeMap ss) order)
    (k : Nat) (n : TreeNode) (hn : (BuildTree ss order).nodes k = some n) :
    n.Snapshot.Id = k ∧ n.Children.Nodup ∧
      (∀ c ∈ n.Children, ∃ nc, (BuildTree ss order).nodes c = some nc ∧ nc.Snapshot.Id = c) ∧
      (∀ i, i ∈ n.Children ↔
        ∃ s ∈ ss, s.Id = i ∧ s.ParentId ≠ 0 ∧ s.ParentId = n.Snapshot.Id) ∧
      (∀ i, (∃ s ∈ ss, s.Id = i ∧ s.ParentId ≠ 0 ∧ s.ParentId = n.Snapshot.Id) →
        n.Children.count i = 1) := by
  obtain ⟨hk, _, hi, hc⟩ := BuildTree_nodes_some ss order k n hn
  have hnd : n.Children.Nodup := by rw [hc]; exact hord.1.filter _
  have hmem : ∀ i, i ∈ n.Children ↔
      ∃ s ∈ ss, s.Id = i ∧ s.ParentId ≠ 0 ∧ s.ParentId = n.Snapshot.Id := by
    intro i
    rw [hc, hi, List.mem_filter, isChildKey_iff ss hid k i hk]
    constructor
    · exact fun h => h.2
    · rintro ⟨s, hs, rfl, h⟩
      exact ⟨(hord.2 _).2 ((buildNodeMap_isSome ss _).2 (List.mem_map_of_mem _ hs)),
        s, hs, rfl, h⟩
  refine ⟨hi, hnd, ?_, hmem, fun i h => List.count_eq_one_of_mem hnd ((hmem i).2 h)⟩
  intro c hcm
  rw [hc, List.mem_filter] at hcm
  have hs : ((BuildTree ss order).nodes c).isSome = true := by
    rw [BuildTree_nodes_isSome]; exact (hord.2 c).1 hcm.1
  obtain ⟨nc, hnc⟩ := Option.isSome_iff_exists.1 hs
  exact ⟨nc, hnc, (BuildTree_nodes_some ss order c nc hnc).2.2.1⟩

/-- Witness of C9: for `[{1,parent 0},{2,parent 1},{3,parent 1}]`, ranged in the
order 3, 1, 2, the single root 1 has exactly the two children 3 and 2. -/
theorem BuildTree_children_witness :
    (BuildTree [⟨1, "root", 0, 0, 0, 0⟩, ⟨2, "child1", 1, 0, 0, 0⟩, ⟨3, "child2", 1, 0, 0, 0⟩]
        [3, 1, 2]).roots = [1] ∧
      (BuildTree [⟨1, "root", 0, 0, 0, 0⟩, ⟨2, "child1", 1, 0, 0, 0⟩, ⟨3, "child2", 1, 0, 0, 0⟩]
        [3, 1, 2]).nodes 1 = some ⟨⟨1, "root", 0, 0, 0, 0⟩, [3, 2]⟩ ∧
      (∀ i, i ∈ [3, 2] ↔
        ∃ s ∈ [(⟨1, "root", 0, 0, 0, 0⟩ : TrackerSnapshot), ⟨2, "child1", 1, 0, 0, 0⟩,
            ⟨3, "child2", 1, 0, 0, 0⟩],
          s.Id = i ∧ s.ParentId ≠ 0 ∧ s.ParentId = 1) :=
  ⟨by decide, by decide,
   (BuildTree_children
      [⟨1, "root", 0, 0, 0, 0⟩, ⟨2, "child1", 1, 0, 0, 0⟩, ⟨3, "child2", 1, 0, 0, 0⟩] [3, 1, 2]
      (by decide) (isRangeOrder_buildNodeMap _ _ (by decide) (fun k => by simp; omega))
      1 ⟨⟨1, "root", 0, 0, 0, 0⟩, [3, 2]⟩ (by decide)).2.2.2.1⟩

theorem count_flatMap_of_unique (c : Nat → List Nat) (n p : Nat)
    (h : ∀ k, n ∈ c k → k = p) (V : List Nat) :
    (V.flatMap c).count n = V.count p * (c p).count n := by
  induction V with
  | nil => simp
  | cons a V ih =>
    rw [List.flatMap_cons, List.count_append, ih, List.count_cons]
    by_cases hap : a = p
    · subst hap
      simp only [beq_self_eq_true, if_true]
      ring
    · have h0 : (c a).count n = 0 := List.count_eq_zero.2 (fun hm => hap (h a hm))
      simp [h0, hap]

theorem descend_nil (nodes : NodeMap) (fuel : Nat) : descend nodes fuel [] = some [] := by
  cases fuel <;> rfl

theorem descend_perm (nodes : NodeMap)
    (hkey : ∀ k n, nodes k = some n → n.Snapshot.Id = k) :
    ∀ (fuel : Nat) (ps : List Nat) (vs : List TreeNode),
      descend nodes fuel ps = some vs →
      (∀ v ∈ vs, nodes v.Snapshot.Id = some v) ∧
      (vs.map (·.Snapshot.Id)).Perm
        (ps ++ (vs.map (·.Snapshot.Id)).flatMap (childrenOf nodes)) := by
  intro fuel
  induction fuel with
  | zero =>
    intro ps vs h
    cases ps with
    | nil =>
      rw [descend_nil] at h
      cases h
      simp
    | cons r rest => simp [descend] at h
  | succ f ih =>
    intro ps vs h
    cases ps with
    | nil =>
      rw [descend_nil] at h
      cases h
      simp
    | cons r rest =>
      simp only [descend] at h
      cases hr : nodes r with
      | none => simp [hr] at h
      | some node =>
        simp only [hr] at h
        cases hb : descend nodes f node.Children with
        | none => simp [hb] at h
        | some below =>
          cases ha : descend nodes f rest with
          | none => simp [hb, ha] at h
          | some after =>
            simp only [hb, ha, Option.some.injEq] at h
            subst h
            obtain ⟨hb1, hb2⟩ := ih _ _ hb
            obtain ⟨ha1, ha2⟩ := ih _ _ ha
            have hid := hkey r node hr
            refine ⟨?_, ?_⟩
            · intro v hv
              simp only [List.mem_cons, List.mem_append] at hv
              rcases hv with rfl | hv | hv
              · rw [hid]; exact hr
              · exact hb1 v hv
              · exact ha1 v hv
            · rw [List.perm_iff_count] at hb2 ha2 ⊢
              intro a
              have e1 := hb2 a
              have e2 := ha2 a
              have e3 : childrenOf nodes r = node.Children := by simp [childrenOf, hr]
              simp only [List.map_cons, List.map_append, List.flatMap_cons,
                List.flatMap_append, List.count_append, List.count_cons, hid, e3,
                List.cons_append] at e1 e2 ⊢
              omega

theorem descend_isSome (nodes : NodeMap) (B : Nat)
    (hlt : ∀ k n, nodes k = some n →
      k < B ∧ ∀ c ∈ n.Children, k < c ∧ (nodes c).isSome = true) :
    ∀ (d : Nat) (ps : List Nat), (∀ p ∈ ps, (nodes p).isSome = true ∧ B ≤ p + d) →
      ∃ f₀, ∀ f, f₀ ≤ f → (descend nodes f ps).isSome = true := by
  intro d
  induction d with
  | zero =>
    intro ps hps
    cases ps with
    | nil => exact ⟨0, fun f _ => by rw [descend_nil]; rfl⟩
    | cons p ps =>
      exfalso
      obtain ⟨h1, h2⟩ := hps p (List.mem_cons_self _ _)
      obtain ⟨n, hn⟩ := Option.isSome_iff_exists.1 h1
      have := (hlt p n hn).1
      omega
  | succ d ih =>
    intro ps
    induction ps with
    | nil => intro _; exact ⟨0, fun f _ => by rw [descend_nil]; rfl⟩
    | cons r rest ihr =>
      intro hps
      obtain ⟨h1, h2⟩ := hps r (List.mem_cons_self _ _)
      obtain ⟨node, hn⟩ := Option.isSome_iff_exists.1 h1
      obtain ⟨f₁, hf₁⟩ := ih node.Children (fun c hc =>
        ⟨((hlt r node hn).2 c hc).2, by have := ((hlt r node hn).2 c hc).1; omega⟩)
      obtain ⟨f₂, hf₂⟩ := ihr (fun p hp => hps p (List.mem_cons_of_mem _ hp))
      refine ⟨f₁ + f₂ + 1, fun f hf => ?_⟩
      obtain ⟨f', rfl⟩ : ∃ f', f = f' + 1 := ⟨f - 1, by omega⟩
      obtain ⟨below, hb⟩ := Option.isSome_iff_exists.1 (hf₁ f' (by omega))
      obtain ⟨after, ha⟩ := Option.isSome_iff_exists.1 (hf₂ f' (by omega))
      simp [descend, hn, hb, ha]

theorem isChildKey_parent (m : NodeMap) (k c : Nat) (h : isChildKey m k c = true) :
    ∃ n, m c = some n ∧ n.Snapshot.ParentId = k ∧ k ≠ 0 ∧ (m k).isSome = true ∧
      isRootKey m c = false := by
  unfold isChildKey at h
  cases hn : m c with
  | none => simp [hn] at h
  | some n =>
    simp only [hn, Bool.and_eq_true, bne_iff_ne, beq_iff_eq] at h
    obtain ⟨⟨h1, h2⟩, h3⟩ := h
    subst h3
    refine ⟨n, rfl, rfl, h1, h2, ?_⟩
    obtain ⟨q, hq⟩ := Option.isSome_iff_exists.1 h2
    simp [isRootKey, hn, h1, hq]

theorem isChildKey_of_not_root (m : NodeMap) (c : Nat) (n : TreeNode) (hn : m c = some n)
    (h : isRootKey m c = false) : isChildKey m n.Snapshot.ParentId c = true := by
  unfold isRootKey at h
  simp only [hn, Bool.or_eq_false_iff, beq_eq_false_iff_ne] at h
  unfold isChildKey
  simp only [hn, Bool.and_eq_true, bne_iff_ne, beq_iff_eq]
  refine ⟨⟨h.1, ?_⟩, trivial⟩
  cases hq : m n.Snapshot.ParentId with
  | none => rw [hq] at h; simp at h
  | some q => rfl

theorem childrenOf_BuildTree (ss : List TrackerSnapshot) (order : List Nat) (k : Nat) :
    childrenOf (BuildTree ss order).nodes k =
      if (buildNodeMap ss k).isSome = true
      then order.filter (isChildKey (buildNodeMap ss) k) else [] := by
  unfold childrenOf
  rw [BuildTree_eq]
  cases h : buildNodeMap ss k <;> simp [h]

theorem BuildTree_roots_eq (ss : List TrackerSnapshot) (order : List Nat) :
    (BuildTree ss order).roots = order.filter (isRootKey (buildNodeMap ss)) := by
  rw [BuildTree_eq]

theorem exists_upper_bound (l : List Nat) : ∃ B, ∀ k ∈ l, k < B := by
  induction l with
  | nil => exact ⟨0, fun k hk => by simp at hk⟩
  | cons a l ih =>
    obtain ⟨B, hB⟩ := ih
    refine ⟨a + B + 1, fun k hk => ?_⟩
    simp only [List.mem_cons] at hk
    rcases hk with rfl | hk
    · omega
    · have := hB k hk; omega

theorem BuildTree_visit_count (ss : List TrackerSnapshot) (order : List Nat)
    (hpar : ∀ s ∈ ss, s.ParentId = 0 ∨ s.ParentId < s.Id)
    (hord : IsRangeOrder (buildNodeMap ss) order) (ks : List Nat)
    (hperm : ks.Perm ((BuildTree ss order).roots ++
      ks.flatMap (childrenOf (BuildTree ss order).nodes))) :
    ∀ n, ks.count n = if n ∈ order then 1 else 0 := by
  have hcount : ∀ n, ks.count n = (BuildTree ss order).roots.count n +
      (ks.flatMap (childrenOf (BuildTree ss order).nodes)).count n := by
    intro n
    rw [← List.count_append]
    exact hperm.count_eq n
  have hchild : ∀ k n, n ∈ childrenOf (BuildTree ss order).nodes k →
      n ∈ order ∧ isChildKey (buildNodeMap ss) k n = true := by
    intro k n hn
    rw [childrenOf_BuildTree] at hn
    split at hn
    · exact List.mem_filter.1 hn
    · simp at hn
  intro n
  induction n using Nat.strong_induction_on with
  | _ n ih =>
    rw [hcount n, BuildTree_roots_eq]
    by_cases hn : n ∈ order
    · rw [if_pos hn]
      obtain ⟨node, hnode⟩ := Option.isSome_iff_exists.1 ((hord.2 n).1 hn)
      cases hroot : isRootKey (buildNodeMap ss) n with
      | true =>
        have h1 : (order.filter (isRootKey (buildNodeMap ss))).count n = 1 :=
          List.count_eq_one_of_mem (hord.1.filter _) (List.mem_filter.2 ⟨hn, hroot⟩)
        have h2 : (ks.flatMap (childrenOf (BuildTree ss order).nodes)).count n = 0 := by
          apply List.count_eq_zero.2
          intro hm
          obtain ⟨k, _, hk⟩ := List.mem_flatMap.1 hm
          obtain ⟨_, _, _, _, _, hnr⟩ := isChildKey_parent _ k n (hchild k n hk).2
          rw [hroot] at hnr
          exact Bool.noConfusion hnr
        rw [h1, h2]
      | false =>
        have h1 : (order.filter (isRootKey (buildNodeMap ss))).count n = 0 := by
          apply List.count_eq_zero.2
          intro hm
          have := (List.mem_filter.1 hm).2
          rw [hroot] at this
          exact Bool.noConfusion this
        have hck := isChildKey_of_not_root _ n node hnode hroot
        obtain ⟨node', hnode', _, hp0, hps, _⟩ := isChildKey_parent _ _ n hck
        have huniq : ∀ k, n ∈ childrenOf (BuildTree ss order).nodes k →
            k = node.Snapshot.ParentId := by
          intro k hk
          obtain ⟨x, hx, hxp, _⟩ := isChildKey_parent _ k n (hchild k n hk).2
          rw [hnode] at hx
          cases hx
          exact hxp.symm
        obtain ⟨_, hmem, hidn⟩ := buildNodeMap_some ss n node hnode
        have hlt : node.Snapshot.ParentId < n := by
          rcases hpar _ hmem with h | h
          · exact absurd h hp0
          · rw [hidn] at h; exact h
        have hpo : node.Snapshot.ParentId ∈ order := (hord.2 _).2 hps
        have h2 := ih _ hlt
        rw [if_pos hpo] at h2
        have h3 : (childrenOf (BuildTree ss order).nodes node.Snapshot.ParentId).count n = 1 := by
          rw [childrenOf_BuildTree, if_pos hps]
          exact List.count_eq_one_of_mem (hord.1.filter _) (List.mem_filter.2 ⟨hn, hck⟩)
        rw [h1, count_flatMap_of_unique _ n _ huniq, h2, h3]
    · rw [if_neg hn]
      have h1 : (order.filter (isRootKey (buildNodeMap ss))).count n = 0 :=
        List.count_eq_zero.2 (fun hm => hn (List.mem_filter.1 hm).1)
      have h2 : (ks.flatMap (childrenOf (BuildTree ss order).nodes)).count n = 0 := by
        apply List.count_eq_zero.2
        intro hm
        obtain ⟨k, _, hk⟩ := List.mem_flatMap.1 hm
        exact hn (hchild k n hk).1
      rw [h1, h2]

/-- C10: for snapshots with pairwise distinct ids in which each ParentId is 0 or
strictly smaller than the snapshot's own id, recursive descent from the roots
returned by `BuildTree` through `Children` terminates (every sufficient fuel
gives a result), the snapshots of the nodes it visits are a permutation of the
input list (every input snapshot exactly once, node count equal to the input
length), and each input snapshot is the one embedded in the node filed under
its id. Ids need not be non-zero for this. -/
theorem BuildTree_descend_visits_all (ss : List TrackerSnapshot) (order : List Nat)
    (hid : (ss.map (·.Id)).Nodup)
    (hpar : ∀ s ∈ ss, s.ParentId = 0 ∨ s.ParentId < s.Id)
    (hord : IsRangeOrder (buildNodeMap ss) order) :
    (∃ fuel₀, ∀ fuel, fuel₀ ≤ fuel →
      ∃ vs, descend (BuildTree ss order).nodes fuel (BuildTree ss order).roots = some vs ∧
        (vs.map (·.Snapshot)).Perm ss ∧ vs.length = ss.length) ∧
      ∀ s ∈ ss, ∃ n, (BuildTree ss order).nodes s.Id = some n ∧ n.Snapshot = s := by
  have hkey : ∀ k n, (BuildTree ss order).nodes k = some n → n.Snapshot.Id = k :=
    fun k n h => (BuildTree_nodes_some ss order k n h).2.2.1
  have hordmem : ∀ k, k ∈ order ↔ k ∈ ss.map (·.Id) :=
    fun k => (hord.2 k).trans (buildNodeMap_isSome ss k)
  obtain ⟨B, hB⟩ := exists_upper_bound order
  have hlt : ∀ k n, (BuildTree ss order).nodes k = some n →
      k < B ∧ ∀ c ∈ n.Children, k < c ∧ ((BuildTree ss order).nodes c).isSome = true := by
    intro k n hn
    obtain ⟨hk, _, _, hc⟩ := BuildTree_nodes_some ss order k n hn
    refine ⟨hB k ((hord.2 k).2 hk), fun c hcm => ?_⟩
    rw [hc, List.mem_filter] at hcm
    obtain ⟨s, hs, hsi, hs0, hsp⟩ := (isChildKey_iff ss hid k c hk).1 hcm.2
    refine ⟨?_, ?_⟩
    · rcases hpar s hs with h | h
      · exact absurd h hs0
      · omega
    · rw [BuildTree_nodes_isSome]; exact (hord.2 c).1 hcm.1
  have hroots : ∀ p ∈ (BuildTree ss order).roots,
      ((BuildTree ss order).nodes p).isSome = true ∧ B ≤ p + B := by
    intro p hp
    rw [BuildTree_roots_eq, List.mem_filter] at hp
    refine ⟨?_, by omega⟩
    rw [BuildTree_nodes_isSome]; exact (hord.2 p).1 hp.1
  obtain ⟨f₀, hf₀⟩ := descend_isSome (BuildTree ss order).nodes B hlt B _ hroots
  have hss : ss.Nodup := List.Nodup.of_map _ hid
  refine ⟨⟨f₀, fun fuel hf => ?_⟩, ?_⟩
  · obtain ⟨vs, hvs⟩ := Option.isSome_iff_exists.1 (hf₀ fuel hf)
    obtain ⟨hv1, hv2⟩ := descend_perm _ hkey fuel _ vs hvs
    have hcnt := BuildTree_visit_count ss order hpar hord _ hv2
    have hks : (vs.map (·.Snapshot.Id)).Perm (ss.map (·.Id)) := by
      rw [List.perm_iff_count]
      intro a
      rw [hcnt a]
      by_cases ha : a ∈ order
      · rw [if_pos ha, List.count_eq_one_of_mem hid ((hordmem a).1 ha)]
      · rw [if_neg ha, List.count_eq_zero_of_not_mem (fun h => ha ((hordmem a).2 h))]
    have hmm : (vs.map (·.Snapshot)).map (·.Id) = vs.map (·.Snapshot.Id) := by
      rw [List.map_map]; rfl
    have hnd : (vs.map (·.Snapshot)).Nodup := by
      apply List.Nodup.of_map (·.Id)
      rw [hmm]
      exact hks.nodup_iff.2 hid
    have hP : (vs.map (·.Snapshot)).Perm ss := by
      rw [List.perm_ext_iff_of_nodup hnd hss]
      intro x
      constructor
      · intro hx
        obtain ⟨v, hv, rfl⟩ := List.mem_map.1 hx
        exact (BuildTree_nodes_some ss order _ v (hv1 v hv)).2.1
      · intro hx
        have h1 : x.Id ∈ vs.map (·.Snapshot.Id) :=
          hks.mem_iff.2 (List.mem_map_of_mem _ hx)
        obtain ⟨v, hv, hvi⟩ := List.mem_map.1 h1
        have hvm := (BuildTree_nodes_some ss order _ v (hv1 v hv)).2.1
        have : v.Snapshot = x := List.inj_on_of_nodup_map hid hvm hx hvi
        rw [← this]
        exact List.mem_map_of_mem _ hv
    refine ⟨vs, hvs, hP, ?_⟩
    have := hP.length_eq
    simpa using this
  · intro s hs
    rw [BuildTree_eq]
    simp only [buildNodeMap_of_mem ss hid s hs, Option.map_some']
    exact ⟨_, rfl, rfl⟩

/-- Witness of C10: the chain 1 <- 2 <- 3, ranged in the order 3, 1, 2, yields
root 1, its child 2 and its grandchild 3, and the descent visits them in that
order. -/
theorem BuildTree_descend_visits_all_witness :
    (BuildTree [⟨1, "root", 0, 0, 0, 0⟩, ⟨2, "level1", 1, 0, 0, 0⟩, ⟨3, "level2", 2, 0, 0, 0⟩]
        [3, 1, 2]).roots = [1] ∧
      (descend (BuildTree
          [⟨1, "root", 0, 0, 0, 0⟩, ⟨2, "level1", 1, 0, 0, 0⟩, ⟨3, "level2", 2, 0, 0, 0⟩]
          [3, 1, 2]).nodes 4 [1]) =
        some [⟨⟨1, "root", 0, 0, 0, 0⟩, [2]⟩, ⟨⟨2, "level1", 1, 0, 0, 0⟩, [3]⟩,
          ⟨⟨3, "level2", 2, 0, 0, 0⟩, []⟩] ∧
      ∀ s ∈ [(⟨1, "root", 0, 0, 0, 0⟩ : TrackerSnapshot), ⟨2, "level1", 1, 0, 0, 0⟩,
          ⟨3, "level2", 2, 0, 0, 0⟩],
        ∃ n, (BuildTree
          [⟨1, "root", 0, 0, 0, 0⟩, ⟨2, "level1", 1, 0, 0, 0⟩, ⟨3, "level2", 2, 0, 0, 0⟩]
          [3, 1, 2]).nodes s.Id = some n ∧ n.Snapshot = s :=
  ⟨by decide, by decide,
   (BuildTree_descend_visits_all
      [⟨1, "root", 0, 0, 0, 0⟩, ⟨2, "level1", 1, 0, 0, 0⟩, ⟨3, "level2", 2, 0, 0, 0⟩] [3, 1, 2]
      (by decide) (by decide)
      (isRangeOrder_buildNodeMap _ _ (by decide) (fun k => by simp; omega))).2⟩

theorem Snapshot_foldl (w : World) (clock : Nat → Time) (order : List Nat) :
    ∀ acc : List TrackerSnapshot,
      order.foldl (fun snapshots key =>
        match w.registry key with
        | none => snapshots
        | some t => snapshots ++ [TrackerSnapshot.ofTracker (w.heap t) (clock key)]) acc =
      acc ++ order.filterMap (fun key =>
        (w.registry key).map fun t => TrackerSnapshot.ofTracker (w.heap t) (clock key)) := by
  induction order with
  | nil => intro acc; simp
  | cons k rest ih =>
    intro acc
    simp only [List.foldl_cons, List.filterMap_cons]
    cases h : w.registry k with
    | none => simp [ih]
    | some t => simp [ih]

theorem Snapshot_enabled (w : World) (order : List Nat) (clock : Nat → Time)
    (he : w.enabled = true) :
    (Snapshot w order clock).2 = order.filterMap (fun key =>
      (w.registry key).map fun t => TrackerSnapshot.ofTracker (w.heap t) (clock key)) := by
  unfold Snapshot
  simp only [he, Bool.true_eq_false, if_false]
  rw [Snapshot_foldl]
  simp

/-- C12: while the subsystem is disabled, for every carrier `c` and name `n`,
`With(c, n)` returns `c` itself and leaves the whole package state (registry
and id counter included) unchanged, and `Snapshot` returns an empty sequence
whatever the registry holds. -/
theorem disabled_With_Snapshot (w : World) (hd : w.enabled = false) (ctx : Context)
    (name : String) (now₁ now₂ : Time) (order : List Nat) (clock : Nat → Time) :
    (With w ctx name now₁ now₂).2 = some ctx ∧
      (With w ctx name now₁ now₂).1 = w ∧
      (With w ctx name now₁ now₂).1.registry = w.registry ∧
      (With w ctx name now₁ now₂).1.idCounter = w.idCounter ∧
      (Snapshot w order clock).2 = [] ∧ (Snapshot w order clock).1 = w := by
  simp [With, Snapshot, hd]

/-- Witness of C12: after one task was created and the subsystem disabled, `With`
hands the carrier back and `Snapshot` is empty although the registry holds
task 1. -/
theorem disabled_With_Snapshot_witness :
    (Disable (With (Enable World.init) .background "a" 5 6).1).registry 1 = some 0 ∧
      (With (Disable (With (Enable World.init) .background "a" 5 6).1)
        .background "b" 7 8).2 = some .background ∧
      (Snapshot (Disable (With (Enable World.init) .background "a" 5 6).1)
        [1] (fun _ => 9)).2 = [] :=
  ⟨by decide,
   (disabled_With_Snapshot (Disable (With (Enable World.init) .background "a" 5 6).1) rfl
      .background "b" 7 8 [1] (fun _ => 9)).1,
   (disabled_With_Snapshot (Disable (With (Enable World.init) .background "a" 5 6).1) rfl
      .background "b" 7 8 [1] (fun _ => 9)).2.2.2.2.1⟩

/-- C13 as stated fails: a carrier that received its task while the subsystem
was enabled still resolves to that task after `Disable`, and `With` hands that
carrier back unchanged. -/
theorem disabled_FromContext_counterexample :
    ¬ (∀ (w : World) (ctx : Context) (name : String) (now₁ now₂ : Time),
        w.enabled = false →
        ∀ c, (With w ctx name now₁ now₂).2 = some c → FromContext c = none) ∧
      (With (Enable World.init) .background "a" 5 6).2 =
        some (.withValue .background .trackerKey (.tracker (some 0))) ∧
      (With (Disable (With (Enable World.init) .background "a" 5 6).1)
        (.withValue .background .trackerKey (.tracker (some 0))) "b" 7 8).2 =
        some (.withValue .background .trackerKey (.tracker (some 0))) ∧
      FromContext (.withValue .background .trackerKey (.tracker (some 0))) = some 0 := by
  refine ⟨?_, by decide, by decide, by decide⟩
  intro h
  have h1 := h (Disable (With (Enable World.init) .background "a" 5 6).1)
    (.withValue .background .trackerKey (.tracker (some 0))) "b" 7 8 rfl
    (.withValue .background .trackerKey (.tracker (some 0))) (by decide)
  exact absurd h1 (by decide)

/-- C13 (amended): while the subsystem is disabled, for every carrier `c` and
name `n`, `FromContext` applied to the carrier returned by `With(c, n)` returns
what `FromContext(c)` returns: nil when `c` carries no task, and the task `c`
already carries otherwise. -/
theorem disabled_FromContext (w : World) (hd : w.enabled = false) (ctx : Context)
    (name : String) (now₁ now₂ : Time) :
    ∃ c, (With w ctx name now₁ now₂).2 = some c ∧ FromContext c = FromContext ctx ∧
      (FromContext ctx = none → FromContext c = none) ∧
      (∀ p, FromContext ctx = some p → FromContext c = some p) := by
  refine ⟨ctx, by simp [With, hd], rfl, fun h => h, fun _ h => h⟩

/-- Witness of C13 (amended): on the disabled initial package, `With` on the
background carrier returns a carrier that resolves to nil. -/
theorem disabled_FromContext_witness :
    ∃ c, (With World.init .background "a" 5 6).2 = some c ∧
      FromContext c = FromContext .background ∧
      (FromContext .background = none → FromContext c = none) ∧
      (∀ p, FromContext .background = some p → FromContext c = some p) :=
  disabled_FromContext World.init rfl .background "a" 5 6

theorem Forall₂_filterMap_registry (w : World) (clock : Nat → Time) (order : List Nat)
    (h : ∀ k ∈ order, (w.registry k).isSome = true) :
    List.Forall₂
      (fun k s => ∃ p, w.registry k = some p ∧
        s = TrackerSnapshot.ofTracker (w.heap p) (clock k))
      order
      (order.filterMap (fun key =>
        (w.registry key).map fun t => TrackerSnapshot.ofTracker (w.heap t) (clock key))) := by
  induction order with
  | nil => exact List.Forall₂.nil
  | cons k rest ih =>
    obtain ⟨p, hp⟩ := Option.isSome_iff_exists.1 (h k (List.mem_cons_self _ _))
    simp only [List.filterMap_cons, hp, Option.map_some']
    exact List.Forall₂.cons ⟨p, hp, rfl⟩ (ih (fun k' hk' => h k' (List.mem_cons_of_mem _ hk')))

/-- C16: with the subsystem enabled, `Snapshot` returns, entry for entry of the
registry in iteration order, one snapshot that copies the registered task's Id,
Name, ParentId, start time and current state; so its length is the number of
registered tasks and its ids are the ids of the registered tasks. It returns
the package state as it found it. After a `With` call the result is non-empty
and contains the snapshot of the new task. -/
theorem Snapshot_one_per_task (w : World) (he : w.enabled = true) (order : List Nat)
    (clock : Nat → Time) (hord : IsRegistryOrder w.registry order) :
    (Snapshot w order clock).1 = w ∧
      List.Forall₂
        (fun k s => ∃ p, w.registry k = some p ∧
          s.Id = (w.heap p).Id ∧ s.Name = (w.heap p).Name ∧
          s.ParentId = (w.heap p).ParentId ∧ s.StartTimeAt = (w.heap p).startedAt ∧
          s.State = (w.heap p).state ∧ s.Duration = (w.heap p).duration (clock k))
        order (Snapshot w order clock).2 ∧
      (Snapshot w order clock).2.length = order.length ∧
      (∀ (ctx : Context) (name : String) (now₁ now₂ : Time) (order' : List Nat),
        IsRegistryOrder (With w ctx name now₁ now₂).1.registry order' →
        (Snapshot (With w ctx name now₁ now₂).1 order' clock).2 ≠ [] ∧
        ∃ s ∈ (Snapshot (With w ctx name now₁ now₂).1 order' clock).2,
          s.Id = (w.idCounter + 1) % 2 ^ 64 ∧ s.Name = name ∧ s.State = StateRunning ∧
          s.StartTimeAt = now₁) := by
  have hall : ∀ k ∈ order, (w.registry k).isSome = true := fun k hk => (hord.2 k).1 hk
  have hf := Forall₂_filterMap_registry w clock order hall
  rw [← Snapshot_enabled w order clock he] at hf
  refine ⟨by simp [Snapshot, he], ?_, hf.length_eq.symm, ?_⟩
  · refine hf.imp ?_
    rintro k s ⟨p, hp, rfl⟩
    exact ⟨p, hp, rfl, rfl, rfl, rfl, rfl, rfl⟩
  · intro ctx name now₁ now₂ order' hord'
    have he' : (With w ctx name now₁ now₂).1.enabled = true := by
      rw [With_fst_enabled w ⟨ctx, name, now₁, now₂⟩, he]
    have hreg := With_fst_registry w ctx name now₁ now₂ he
    have hmem : (w.idCounter + 1) % 2 ^ 64 ∈ order' := (hord'.2 _).2 (by rw [hreg]; rfl)
    have hs : TrackerSnapshot.ofTracker ((With w ctx name now₁ now₂).1.heap w.next)
        (clock ((w.idCounter + 1) % 2 ^ 64)) ∈
        (Snapshot (With w ctx name now₁ now₂).1 order' clock).2 := by
      rw [Snapshot_enabled _ order' clock he', List.mem_filterMap]
      exact ⟨_, hmem, by rw [hreg]; rfl⟩
    refine ⟨List.ne_nil_of_mem hs, _, hs, ?_⟩
    rw [With_created w ctx name now₁ now₂ he]
    exact ⟨rfl, rfl, rfl, rfl⟩

/-- Witness of C16: after `With(Background, "snapshot-test")` on the freshly
enabled package, `Snapshot` returns exactly the snapshot of task 1. -/
theorem Snapshot_one_per_task_witness :
    (Snapshot (With (Enable World.init) .background "snapshot-test" 5 6).1 [1]
        (fun _ => 9)).2 = [⟨1, "snapshot-test", 0, 5, 0, 4⟩] ∧
      (Snapshot (With (Enable World.init) .background "snapshot-test" 5 6).1 [1]
        (fun _ => 9)).2.length = [1].length :=
  ⟨by decide,
   (Snapshot_one_per_task (With (Enable World.init) .background "snapshot-test" 5 6).1 rfl [1]
      (fun _ => 9)
      ⟨by decide, fun k => by
        by_cases hk : k = 1
        · subst hk; simp; decide
        · simp [hk, With, Enable, World.init, World.write, World.registryStore]⟩).2.2.1⟩

/-! ## Theorems: exported duration -/

theorem wrapInt64_of_inInt64 (x : Int) (h : InInt64 x) : wrapInt64 x = x := by
  unfold InInt64 at h
  unfold wrapInt64
  omega

/-- C18 as stated fails inside the int64 range. For a task started at instant
-5000000000000000000, `Done` at instant 4000000000000000000 and again at the
later instant 5000000000000000000 leaves a snapshot with the duration
-8446744073709551616 (the int64 subtraction wraps), not `e2 - startedAt`; and
for a task started at instant -10, `Done` at instant -5 and again at the later
instant 0, the Unix epoch, leaves the end time reading as unset, so the
snapshot at instant 7 reports the duration 17, not 10. -/
theorem Done_twice_int64_counterexample :
    ¬ (∀ (w : World) (p : Ptr) (e₁ e₂ now : Time),
        InInt64 (w.heap p).startedAt → InInt64 e₁ → InInt64 e₂ → InInt64 now → e₁ < e₂ →
        (TrackerSnapshot.ofTracker
          ((Done (Done w (some p) e₁) (some p) e₂).heap p) now).Duration
            = e₂ - (w.heap p).startedAt) ∧
      (TrackerSnapshot.ofTracker
        ((Done (Done (With (Enable World.init) .background "t" (-5000000000000000000) 0).1
          (some 0) 4000000000000000000) (some 0) 5000000000000000000).heap 0)
        5000000000000000000).Duration = -8446744073709551616 ∧
      (TrackerSnapshot.ofTracker
        ((Done (Done (With (Enable World.init) .background "t" (-10) 0).1 (some 0) (-5))
          (some 0) 0).heap 0) 7).Duration = 17 := by
  refine ⟨?_, by decide, by decide⟩
  intro h
  have h1 := h (With (Enable World.init) .background "t" (-5000000000000000000) 0).1 0
    4000000000000000000 5000000000000000000 5000000000000000000
    (by decide) (by decide) (by decide) (by decide) (by decide)
  have h2 : (TrackerSnapshot.ofTracker
      ((Done (Done (With (Enable World.init) .background "t" (-5000000000000000000) 0).1
        (some 0) 4000000000000000000) (some 0) 5000000000000000000).heap 0)
      5000000000000000000).Duration = -8446744073709551616 := by decide
  have h3 : ((With (Enable World.init) .background "t" (-5000000000000000000) 0).1.heap
      0).startedAt = -5000000000000000000 := by decide
  rw [h2, h3] at h1
  exact absurd h1 (by decide)

/-- C18 (amended): repeated completion is last-write-wins: for every task and
instants inside the int64 range, after `Done` at instant `e₁` and again at a
later instant `e₂`, the state reads Completed and the end time is `e₂`; a
snapshot taken afterwards reports Duration `e₂ - startedAt` when `e₂` is not 0
(the Unix epoch, which reads as unset) and that span fits an int64. -/
theorem Done_twice_last_write_wins (w : World) (p : Ptr) (e₁ e₂ now : Time)
    (_hs : InInt64 (w.heap p).startedAt) (_h₁ : InInt64 e₁) (_h₂ : InInt64 e₂)
    (hlt : e₁ < e₂) (h0 : e₂ ≠ 0) (hr : InInt64 (e₂ - (w.heap p).startedAt)) :
    ((Done (Done w (some p) e₁) (some p) e₂).heap p).state = StateCompleted ∧
      ((Done (Done w (some p) e₁) (some p) e₂).heap p).endedAt = e₂ ∧
      ((Done (Done w (some p) e₁) (some p) e₂).heap p).endedAt
        ≠ ((Done w (some p) e₁).heap p).endedAt ∧
      (TrackerSnapshot.ofTracker
        ((Done (Done w (some p) e₁) (some p) e₂).heap p) now).Duration
          = e₂ - (w.heap p).startedAt := by
  refine ⟨by simp [Done, World.write], by simp [Done, World.write], ?_, ?_⟩
  · simp only [Done, World.write, if_true]
    exact ne_of_gt hlt
  · have h : (TrackerSnapshot.ofTracker
        ((Done (Done w (some p) e₁) (some p) e₂).heap p) now).Duration
          = wrapInt64 (e₂ - (w.heap p).startedAt) := by
      simp [TrackerSnapshot.ofTracker, Tracker.duration, Done, World.write, h0]
    rw [h, wrapInt64_of_inInt64 _ hr]

/-- Witness of C18 (amended): a task started at instant 5, completed at instant
8 and again at instant 12, reports the duration 7. -/
theorem Done_twice_last_write_wins_witness :
    (TrackerSnapshot.ofTracker
      ((Done (Done (With (Enable World.init) .background "t" 5 6).1 (some 0) 8)
        (some 0) 12).heap 0) 20).Duration = 7 ∧
      (TrackerSnapshot.ofTracker
        ((Done (Done (With (Enable World.init) .background "t" 5 6).1 (some 0) 8)
          (some 0) 12).heap 0) 20).Duration
            = 12 - ((With (Enable World.init) .background "t" 5 6).1.heap 0).startedAt :=
  ⟨by decide,
   (Done_twice_last_write_wins (With (Enable World.init) .background "t" 5 6).1 0 8 12 20
      (by decide) (by decide) (by decide) (by decide) (by decide) (by decide)).2.2.2⟩

/-! ## Theorems: reachable package states -/

theorem boundByWith_value (n : Ptr) (ctx : Context) (h : ctx.boundByWith n) :
    ∀ q, ctx.Value .trackerKey = .tracker (some q) → q < n := by
  induction ctx with
  | nil => intro q hq; simp [Context.Value] at hq
  | background => intro q hq; simp [Context.Value] at hq
  | withValue parent k v ih =>
    intro q hq
    simp only [Context.Value] at hq
    split at hq
    · rename_i hk
      obtain ⟨p, hp, hv⟩ := h.2 hk.symm
      rw [hv] at hq
      cases hq
      exact hp
    · exact ih h.1 q hq

theorem FromContext_lt (n : Ptr) (ctx : Context) (h : ctx.boundByWith n) (q : Ptr)
    (hq : FromContext ctx = some q) : q < n := by
  unfold FromContext at hq
  split at hq
  · exact Option.noConfusion hq
  · split at hq
    · exact Option.noConfusion hq
    · rename_i p hv
      subst hq
      exact boundByWith_value n ctx h q hv
    · exact Option.noConfusion hq

theorem With_fst_eq (w : World) (ctx : Context) (name : String) (now₁ now₂ : Time)
    (he : w.enabled = true) :
    (With w ctx name now₁ now₂).1 =
      { enabled := w.enabled, idCounter := (w.idCounter + 1) % 2 ^ 64,
        registry := fun k => if k = (w.idCounter + 1) % 2 ^ 64 then some w.next
          else w.registry k,
        heap := fun q => if q = w.next then (With w ctx name now₁ now₂).1.heap w.next
          else w.heap q,
        next := w.next + 1 } := by
  rw [With_created w ctx name now₁ now₂ he]
  unfold With
  cases h : FromContext ctx <;> simp [he, World.write, World.registryStore]

theorem With_fst_disabled (w : World) (ctx : Context) (name : String) (now₁ now₂ : Time)
    (hd : w.enabled = false) : (With w ctx name now₁ now₂).1 = w := by
  simp [With, hd]

theorem Done_frame (w : World) (t : Option Ptr) (now : Time) :
    (Done w t now).next = w.next ∧ (Done w t now).idCounter = w.idCounter ∧
      (Done w t now).registry = w.registry ∧ (Done w t now).enabled = w.enabled ∧
      ∀ q, ((Done w t now).heap q).Id = (w.heap q).Id ∧
        ((Done w t now).heap q).ParentId = (w.heap q).ParentId := by
  cases t with
  | none => simp [Done]
  | some p =>
    refine ⟨rfl, rfl, rfl, rfl, fun q => ?_⟩
    by_cases hq : q = p <;> simp [Done, World.write, hq]

theorem MarkActive_frame (w : World) (t : Option Ptr) (now : Time) :
    (MarkActive w t now).next = w.next ∧ (MarkActive w t now).idCounter = w.idCounter ∧
      (MarkActive w t now).registry = w.registry ∧
      (MarkActive w t now).enabled = w.enabled ∧
      ∀ q, ((MarkActive w t now).heap q).Id = (w.heap q).Id ∧
        ((MarkActive w t now).heap q).ParentId = (w.heap q).ParentId := by
  cases t with
  | none => simp [MarkActive]
  | some p =>
    refine ⟨rfl, rfl, rfl, rfl, fun q => ?_⟩
    by_cases hq : q = p <;> simp [MarkActive, World.write, hq]

theorem MarkIdle_frame (w : World) (t : Option Ptr) :
    (MarkIdle w t).next = w.next ∧ (MarkIdle w t).idCounter = w.idCounter ∧
      (MarkIdle w t).registry = w.registry ∧ (MarkIdle w t).enabled = w.enabled ∧
      ∀ q, ((MarkIdle w t).heap q).Id = (w.heap q).Id ∧
        ((MarkIdle w t).heap q).ParentId = (w.heap q).ParentId := by
  cases t with
  | none => simp [MarkIdle]
  | some p =>
    refine ⟨rfl, rfl, rfl, rfl, fun q => ?_⟩
    by_cases hq : q = p <;> simp [MarkIdle, World.write, hq]

theorem RegistryInv_of_frame (w w' : World) (hn : w'.next = w.next)
    (hc : w'.idCounter = w.idCounter) (hr : w'.registry = w.registry)
    (hh : ∀ q, (w'.heap q).Id = (w.heap q).Id ∧ (w'.heap q).ParentId = (w.heap q).ParentId)
    (h : RegistryInv w) : RegistryInv w' := by
  obtain ⟨h1, h2, h3⟩ := h
  refine ⟨by rw [hc, hn, h1], ?_, ?_⟩
  · intro p hp
    rw [hn] at hp
    rw [(hh p).1, (hh p).2, hr]
    exact h2 p hp
  · intro k q hk
    rw [hr] at hk
    rw [hn]
    exact h3 k q hk

theorem RegistryInv_With (w : World) (ctx : Context) (name : String) (now₁ now₂ : Time)
    (hb : ctx.boundByWith w.next) (hlt : w.next + 1 < 2 ^ 64) (he : w.enabled = true)
    (h : RegistryInv w) : RegistryInv (With w ctx name now₁ now₂).1 := by
  obtain ⟨h1, h2, h3⟩ := h
  have hid : (w.idCounter + 1) % 2 ^ 64 = w.next + 1 := by
    rw [h1]; exact Nat.mod_eq_of_lt hlt
  have hcr := With_created w ctx name now₁ now₂ he
  rw [hid] at hcr
  have hw := With_fst_eq w ctx name now₁ now₂ he
  rw [hid] at hw
  have hnext : (With w ctx name now₁ now₂).1.next = w.next + 1 := by rw [hw]
  have hcnt : (With w ctx name now₁ now₂).1.idCounter = w.next + 1 := by rw [hw]
  have hreg : ∀ k, (With w ctx name now₁ now₂).1.registry k =
      if k = w.next + 1 then some w.next else w.registry k := by
    intro k; rw [hw]
  have hheap : ∀ q, q ≠ w.next → (With w ctx name now₁ now₂).1.heap q = w.heap q := by
    intro q hq
    rw [hw]
    simp [hq]
  refine ⟨by rw [hcnt, hnext], ?_, ?_⟩
  · intro p hp
    rw [hnext] at hp
    by_cases hpn : p = w.next
    · subst hpn
      rw [hcr, hreg]
      refine ⟨rfl, ?_, by simp⟩
      cases hf : FromContext ctx with
      | none => simp
      | some q =>
        have hq := FromContext_lt w.next ctx hb q hf
        simp only
        rw [(h2 q hq).1]
        unfold Ptr at *
        omega
    · have hp' : p < w.next := by unfold Ptr at *; omega
      rw [hheap p hpn, hreg]
      obtain ⟨a, b, c⟩ := h2 p hp'
      refine ⟨a, b, ?_⟩
      have : p + 1 ≠ w.next + 1 := by unfold Ptr at *; omega
      simp [this, c]
  · intro k q hk
    rw [hreg] at hk
    rw [hnext]
    split at hk
    · rename_i hkn
      cases hk
      exact ⟨by unfold Ptr at *; omega, hkn⟩
    · obtain ⟨a, b⟩ := h3 k q hk
      exact ⟨by unfold Ptr at *; omega, b⟩

theorem Reachable_RegistryInv (w : World) (h : Reachable w) :
    w.next < 2 ^ 64 → RegistryInv w := by
  induction h with
  | init =>
    intro _
    refine ⟨rfl, ?_, ?_⟩
    · intro p hp; exact absurd hp (Nat.not_lt_zero p)
    · intro k q hk; simp [World.init] at hk
  | enable w _ ih => exact fun hlt => ih hlt
  | disable w _ ih => exact fun hlt => ih hlt
  | attach w ctx name now₁ now₂ _ hb ih =>
    intro hlt
    cases he : w.enabled with
    | false =>
      rw [With_fst_disabled w ctx name now₁ now₂ he] at hlt ⊢
      exact ih hlt
    | true =>
      have hw := With_fst_eq w ctx name now₁ now₂ he
      have hnext : (With w ctx name now₁ now₂).1.next = w.next + 1 := by rw [hw]
      rw [hnext] at hlt
      exact RegistryInv_With w ctx name now₁ now₂ hb hlt he (ih (by unfold Ptr at *; omega))
  | markActive w t now _ ih =>
    intro hlt
    obtain ⟨a, b, c, _, d⟩ := MarkActive_frame w t now
    rw [a] at hlt
    exact RegistryInv_of_frame w _ a b c d (ih hlt)
  | markIdle w t _ ih =>
    intro hlt
    obtain ⟨a, b, c, _, d⟩ := MarkIdle_frame w t
    rw [a] at hlt
    exact RegistryInv_of_frame w _ a b c d (ih hlt)
  | done w t now _ ih =>
    intro hlt
    obtain ⟨a, b, c, _, d⟩ := Done_frame w t now
    rw [a] at hlt
    exact RegistryInv_of_frame w _ a b c d (ih hlt)

theorem followParents_isSome (w : World) (h : RegistryInv w) :
    ∀ fuel i : Nat, i ≤ fuel → i ≤ w.next → ∃ hops, followParents w fuel i = some hops := by
  intro fuel
  induction fuel with
  | zero =>
    intro i hi _
    have : i = 0 := Nat.le_zero.1 hi
    subst this
    exact ⟨0, rfl⟩
  | succ f ih =>
    intro i hi hn
    cases i with
    | zero => exact ⟨0, rfl⟩
    | succ j =>
      obtain ⟨_, hpar, hreg⟩ := h.2.1 j (by unfold Ptr at *; omega)
      obtain ⟨hops, hh⟩ := ih (w.heap j).ParentId
        (by unfold Ptr at *; omega) (by unfold Ptr at *; omega)
      exact ⟨hops + 1, by simp [followParents, hreg, hh]⟩

theorem ReachableInMemory_Reachable (w : World) (h : ReachableInMemory w) :
    Reachable w ∧ w.next < 2 ^ 64 := by
  induction h with
  | init => exact ⟨Reachable.init, by decide⟩
  | enable w _ ih => exact ⟨Reachable.enable w ih.1, ih.2⟩
  | disable w _ ih => exact ⟨Reachable.disable w ih.1, ih.2⟩
  | attach w ctx name now₁ now₂ _ hb hmem ih =>
    refine ⟨Reachable.attach w ctx name now₁ now₂ ih.1 hb, ?_⟩
    cases he : w.enabled with
    | false =>
      rw [With_fst_disabled w ctx name now₁ now₂ he]
      exact ih.2
    | true =>
      rw [With_fst_eq w ctx name now₁ now₂ he]
      exact hmem he
  | markActive w t now _ ih =>
    refine ⟨Reachable.markActive w t now ih.1, ?_⟩
    rw [(MarkActive_frame w t now).1]
    exact ih.2
  | markIdle w t _ ih =>
    refine ⟨Reachable.markIdle w t ih.1, ?_⟩
    rw [(MarkIdle_frame w t).1]
    exact ih.2
  | done w t now _ ih =>
    refine ⟨Reachable.done w t now ih.1, ?_⟩
    rw [(Done_frame w t now).1]
    exact ih.2

/-- C15: in every state the program can reach from the initial state (counter
0, empty registry) through `Enable`, `Disable`, `With` on carriers bound only
by `With`, `MarkActive`, `MarkIdle` and `Done`, every registered task is
registered under its own Id, has Id at least 1 and ParentId either 0 or
strictly smaller than its Id, a non-zero ParentId is the Id of a registered
task, and following parent ids from the task reaches 0 within Id hops. -/
theorem registry_acyclic (w : World) (h : ReachableInMemory w)
    (k : Nat) (p : Ptr) (hreg : w.registry k = some p) :
    (w.heap p).Id = k ∧ 1 ≤ (w.heap p).Id ∧
      ((w.heap p).ParentId = 0 ∨ (w.heap p).ParentId < (w.heap p).Id) ∧
      ((w.heap p).ParentId ≠ 0 →
        ∃ q, w.registry (w.heap p).ParentId = some q ∧
          (w.heap q).Id = (w.heap p).ParentId) ∧
      ∃ hops, followParents w (w.heap p).Id (w.heap p).Id = some hops := by
  obtain ⟨hr, hnw⟩ := ReachableInMemory_Reachable w h
  have inv := Reachable_RegistryInv w hr hnw
  obtain ⟨hp, hk⟩ := inv.2.2 k p hreg
  obtain ⟨hid, hpar, _⟩ := inv.2.1 p hp
  unfold Ptr at *
  refine ⟨by omega, by omega, by omega, ?_, ?_⟩
  · intro hne
    have hlt : (w.heap p).ParentId - 1 < w.next := by omega
    obtain ⟨hid', _, hreg'⟩ := inv.2.1 ((w.heap p).ParentId - 1) hlt
    have e : (w.heap p).ParentId - 1 + 1 = (w.heap p).ParentId := by omega
    rw [e] at hid' hreg'
    exact ⟨_, hreg', hid'⟩
  · exact followParents_isSome w inv _ _ (le_refl _) (by omega)

/-- Witness of C15: after `With(With(Background, "a"), "b")` on the freshly
enabled package, task 2 is registered with parent 1, and its parent chain
reaches 0 in two hops. -/
theorem registry_acyclic_witness :
    ((With (With (Enable World.init) .background "a" 5 6).1
        (.withValue .background .trackerKey (.tracker (some 0))) "b" 7 8).1.heap 1).ParentId
        = 1 ∧
      followParents (With (With (Enable World.init) .background "a" 5 6).1
        (.withValue .background .trackerKey (.tracker (some 0))) "b" 7 8).1 2 2 = some 2 ∧
      ((With (With (Enable World.init) .background "a" 5 6).1
        (.withValue .background .trackerKey (.tracker (some 0))) "b" 7 8).1.heap 1).Id = 2 :=
  ⟨by decide, by decide,
   (registry_acyclic
      (With (With (Enable World.init) .background "a" 5 6).1
        (.withValue .background .trackerKey (.tracker (some 0))) "b" 7 8).1
      (ReachableInMemory.attach _ _ "b" 7 8
        (ReachableInMemory.attach _ .background "a" 5 6
          (ReachableInMemory.enable _ ReachableInMemory.init) trivial (fun _ => by decide))
        ⟨trivial, fun _ => ⟨0, by decide, rfl⟩⟩ (fun _ => by decide))
      2 1 (by decide)).1⟩

/-! ## Theorems: range of the state value -/

theorem State_String_isSome (s : State) :
    (State.String s).isSome = true ↔
      (s = StateRunning ∨ s = StateIdle ∨ s = StateCompleted) := by
  unfold State.String StateRunning StateIdle StateCompleted
  by_cases h : 0 ≤ s
  · obtain ⟨n, rfl⟩ := Int.eq_ofNat_of_zero_le h
    rcases n with _ | _ | _ | n
    · simp
    · simp
    · simp
    · simp only [h, if_true, Int.toNat_ofNat]
      constructor
      · intro h'
        simp at h'
      · intro h'
        have h'' : ((n + 1 + 1 + 1 : Nat) : Int) = 0 ∨ ((n + 1 + 1 + 1 : Nat) : Int) = 1 ∨
            ((n + 1 + 1 + 1 : Nat) : Int) = 2 := h'
        omega
  · simp only [h, if_false]
    constructor
    · intro h'
      simp at h'
    · intro h'
      rcases h' with h' | h' | h' <;> subst h' <;> exact absurd (by decide) h

theorem Reachable_state_range (w : World) (h : Reachable w) :
    ∀ p, (w.heap p).state = StateRunning ∨ (w.heap p).state = StateIdle ∨
      (w.heap p).state = StateCompleted := by
  induction h with
  | init => intro p; exact Or.inl rfl
  | enable w _ ih => exact ih
  | disable w _ ih => exact ih
  | attach w ctx name now₁ now₂ _ _ ih =>
    intro p
    cases he : w.enabled with
    | false => rw [With_fst_disabled w ctx name now₁ now₂ he]; exact ih p
    | true =>
      by_cases hp : p = w.next
      · subst hp
        rw [With_created w ctx name now₁ now₂ he]
        exact Or.inl rfl
      · rw [With_fst_eq w ctx name now₁ now₂ he]
        simp only [hp, if_false]
        exact ih p
  | markActive w t now _ ih =>
    intro p
    cases t with
    | none => exact ih p
    | some q =>
      by_cases hp : p = q
      · subst hp; exact Or.inl (by simp [MarkActive, World.write])
      · have : (MarkActive w (some q) now).heap p = w.heap p := by
          simp [MarkActive, World.write, hp]
        rw [this]; exact ih p
  | markIdle w t _ ih =>
    intro p
    cases t with
    | none => exact ih p
    | some q =>
      by_cases hp : p = q
      · subst hp; exact Or.inr (Or.inl (by simp [MarkIdle, World.write]))
      · have : (MarkIdle w (some q)).heap p = w.heap p := by
          simp [MarkIdle, World.write, hp]
        rw [this]; exact ih p
  | done w t now _ ih =>
    intro p
    cases t with
    | none => exact ih p
    | some q =>
      by_cases hp : p = q
      · subst hp; exact Or.inr (Or.inr (by simp [Done, World.write]))
      · have : (Done w (some q) now).heap p = w.heap p := by
          simp [Done, World.write, hp]
        rw [this]; exact ih p

/-- C19: `State.String` is defined exactly on the values 0, 1, 2, and every
State the library produces is in that range: the state field of every tracker
in every reachable package state (creation by `With` followed by any sequence
of `MarkActive`, `MarkIdle` and `Done`), hence the State of every snapshot
returned by `Snapshot`, and every value set by a successful `UnmarshalJSON`;
so `String` and `MarshalJSON` do not index out of bounds on them. -/
theorem State_String_in_range (w : World) (h : Reachable w) :
    (∀ s : State, (State.String s).isSome = true ↔
        (s = StateRunning ∨ s = StateIdle ∨ s = StateCompleted)) ∧
      (∀ p, (State.String (w.heap p).state).isSome = true) ∧
      (∀ (order : List Nat) (clock : Nat → Time), ∀ s ∈ (Snapshot w order clock).2,
        (State.String s.State).isSome = true ∧
        ∀ {Data Err : Type} (json : JSONCodec Data Err),
          (State.MarshalJSON json s.State).isSome = true) ∧
      (∀ {Data Err : Type} (json : JSONCodec Data Err) (s₀ : State) (data : Data) (s : State),
        State.UnmarshalJSON json s₀ data = (s, none) →
        (State.String s).isSome = true ∧ (State.MarshalJSON json s).isSome = true) := by
  have hheap : ∀ p, (State.String (w.heap p).state).isSome = true :=
    fun p => (State_String_isSome _).2 (Reachable_state_range w h p)
  have hm : ∀ {Data Err : Type} (json : JSONCodec Data Err) (s : State),
      (State.String s).isSome = true → (State.MarshalJSON json s).isSome = true := by
    intro Data Err json s hs
    simp only [State.MarshalJSON, Option.isSome_map']
    exact hs
  refine ⟨State_String_isSome, hheap, ?_, ?_⟩
  · intro order clock s hs
    have hst : (State.String s.State).isSome = true := by
      cases he : w.enabled with
      | false => simp [Snapshot, he] at hs
      | true =>
        rw [Snapshot_enabled w order clock he, List.mem_filterMap] at hs
        obtain ⟨k, _, hk⟩ := hs
        cases hr : w.registry k with
        | none => rw [hr] at hk; simp at hk
        | some p =>
          rw [hr] at hk
          simp only [Option.map_some', Option.some.injEq] at hk
          subst hk
          exact hheap p
    exact ⟨hst, fun json => hm json _ hst⟩
  · intro Data Err json s₀ data s hs
    have hst : (State.String s).isSome = true := by
      apply (State_String_isSome s).2
      unfold State.UnmarshalJSON at hs
      cases hu : json.Unmarshal data with
      | error e => rw [hu] at hs; simp at hs
      | ok str =>
        rw [hu] at hs
        simp only [Prod.mk.injEq, and_true] at hs
        subst hs
        by_cases h1 : str = "running"
        · simp [h1]
        · by_cases h2 : str = "idle"
          · simp [h2]
          · by_cases h3 : str = "completed"
            · simp [h3]
            · simp [h1, h2, h3]
    exact ⟨hst, hm json s hst⟩

/-- Witness of C19: a tracker created, marked idle and completed in the freshly
enabled package has state 2, which `String` renders as "completed". -/
theorem State_String_in_range_witness :
    State.String ((Done (MarkIdle (With (Enable World.init) .background "a" 5 6).1 (some 0))
        (some 0) 9).heap 0).state = some "completed" ∧
      (State.String ((Done (MarkIdle (With (Enable World.init) .background "a" 5 6).1 (some 0))
        (some 0) 9).heap 0).state).isSome = true :=
  ⟨by decide,
   (State_String_in_range
      (Done (MarkIdle (With (Enable World.init) .background "a" 5 6).1 (some 0)) (some 0) 9)
      (Reachable.done _ _ 9 (Reachable.markIdle _ _
        (Reachable.attach _ .background "a" 5 6
          (Reachable.enable _ Reachable.init) trivial)))).2.1 0⟩

/-! ## Theorems: cycles in the parent pointers -/

/-- C20: `BuildTree` does no cycle detection: for the self-parented snapshot
`[{id:1,parent:1}]` and for the two-cycle `[{id:1,parent:2},{id:2,parent:1}]`
(non-empty inputs with pairwise distinct non-zero ids that break `ParentId is 0
or smaller than Id`), whatever the iteration order, `BuildTree` returns no
root, so the descent from its result visits no input snapshot; the nodes are
only each other's children. -/
theorem BuildTree_cycle_no_roots (order : List Nat) (fuel : Nat) :
    (BuildTree [⟨1, "a", 1, 0, 0, 0⟩] order).roots = [] ∧
      (BuildTree [⟨1, "a", 2, 0, 0, 0⟩, ⟨2, "b", 1, 0, 0, 0⟩] order).roots = [] ∧
      descend (BuildTree [⟨1, "a", 1, 0, 0, 0⟩] order).nodes fuel
        (BuildTree [⟨1, "a", 1, 0, 0, 0⟩] order).roots = some [] ∧
      descend (BuildTree [⟨1, "a", 2, 0, 0, 0⟩, ⟨2, "b", 1, 0, 0, 0⟩] order).nodes fuel
        (BuildTree [⟨1, "a", 2, 0, 0, 0⟩, ⟨2, "b", 1, 0, 0, 0⟩] order).roots = some [] ∧
      (BuildTree [⟨1, "a", 1, 0, 0, 0⟩] [1]).nodes 1 = some ⟨⟨1, "a", 1, 0, 0, 0⟩, [1]⟩ ∧
      (BuildTree [⟨1, "a", 2, 0, 0, 0⟩, ⟨2, "b", 1, 0, 0, 0⟩] [2, 1]).nodes 1
        = some ⟨⟨1, "a", 2, 0, 0, 0⟩, [2]⟩ ∧
      (BuildTree [⟨1, "a", 2, 0, 0, 0⟩, ⟨2, "b", 1, 0, 0, 0⟩] [2, 1]).nodes 2
        = some ⟨⟨2, "b", 1, 0, 0, 0⟩, [1]⟩ := by
  have h1 : (BuildTree [⟨1, "a", 1, 0, 0, 0⟩] order).roots = [] := by
    rw [BuildTree_roots_eq, List.filter_eq_nil_iff]
    intro k _
    by_cases hk : k = 1
    · subst hk; decide
    · simp [isRootKey, buildNodeMap, NodeMap.store, hk]
  have h2 : (BuildTree [⟨1, "a", 2, 0, 0, 0⟩, ⟨2, "b", 1, 0, 0, 0⟩] order).roots = [] := by
    rw [BuildTree_roots_eq, List.filter_eq_nil_iff]
    intro k _
    by_cases hk : k = 1
    · subst hk; decide
    · by_cases hk2 : k = 2
      · subst hk2; decide
      · simp [isRootKey, buildNodeMap, NodeMap.store, hk, hk2]
  refine ⟨h1, h2, ?_, ?_, by decide, by decide, by decide⟩
  · rw [h1, descend_nil]
  · rw [h2, descend_nil]

end Obs
